import Mathlib

/-!
# Source based routing plugin (`plugins/meta/sbr/main.go`)

A shallow embedding of the routing-table allocator (`getNextTableID`), the
provisioning passes (`doRoutes`, `doRoutesWithTable`) and the teardown pass
(`tidyRules`), followed by the properties established about them.

Go `int` is modelled as `Int` restricted to the 64-bit range; the only
arithmetic the plugin performs on it is `table++`, modelled by `wrapInt`.
Kernel access (netlink) is an external collaborator: it is a parameter of
every pass, and every call a pass issues is recorded in a trace.
-/

set_option autoImplicit false

namespace Sbr

/-! ## Go integers -/

/-- Largest Go `int` on a 64-bit platform. -/
def maxInt : Int := 9223372036854775807

/-- Smallest Go `int` on a 64-bit platform. -/
def minInt : Int := -9223372036854775808

/-- Two's complement wrap-around of a 64-bit signed integer, as performed by
Go arithmetic on `int`. -/
def wrapInt (x : Int) : Int :=
  (x + 9223372036854775808) % 18446744073709551616 - 9223372036854775808

/-! ## Addresses (Go package `net`) -/

/-- Go `net.IP`: a byte slice, `none` standing for the nil slice. -/
abbrev IP := Option (List Nat)

/-- Go `len(ip)` together with the bytes of the slice. -/
def IP.bytes (ip : IP) : List Nat := ip.getD []

/-- Go `net.IPNet`. -/
structure IPNet where
  IP : IP
  Mask : List Nat
deriving DecidableEq, Repr

/-- Go `net.IP.To4`: the 4-byte form of an IPv4 address, the nil slice when
the address is not an IPv4 address. -/
def IP.To4 (ip : IP) : IP :=
  let b := ip.bytes
  if b.length = 4 then ip
  else if b.length = 16 ∧ (b.take 10).all (fun x => x == 0) ∧
      b.getD 10 0 = 255 ∧ b.getD 11 0 = 255 then some (b.drop 12)
  else none

/-- Go `net.CIDRMask` (called by the plugin on constants only). -/
def CIDRMask (ones bits : Nat) : List Nat :=
  if bits ≠ 32 ∧ bits ≠ 128 then []
  else if ones > bits then []
  else (List.range (bits / 8)).map (fun i =>
    let n := ones - 8 * i
    if n ≥ 8 then 255 else 255 - (255 >>> n))

/-- Go `net.IPv4zero`, in the 16-byte form the package stores it in. -/
def IPv4zero : IP := some [0, 0, 0, 0, 0, 0, 0, 0, 0, 0, 255, 255, 0, 0, 0, 0]

/-- Go `net.IPv6zero`. -/
def IPv6zero : IP := some [0, 0, 0, 0, 0, 0, 0, 0, 0, 0, 0, 0, 0, 0, 0, 0]

/-- The 12-byte header of an IPv4 address stored in 16 bytes. -/
def v4InV6Prefix : List Nat := [0, 0, 0, 0, 0, 0, 0, 0, 0, 0, 255, 255]

/-- Go `net.IP.Equal`: same address, an IPv4 address and its 16-byte form
being the same. -/
def IP.Equal (ip x : IP) : Bool :=
  let a := ip.bytes
  let b := x.bytes
  if a.length = b.length then a == b
  else if a.length = 4 ∧ b.length = 16 then b.take 12 == v4InV6Prefix && a == b.drop 12
  else if a.length = 16 ∧ b.length = 4 then a.take 12 == v4InV6Prefix && a.drop 12 == b
  else false

/-- Go `net.networkNumberAndMask`; the pair of nil slices is `([], [])`. -/
def networkNumberAndMask (n : IPNet) : List Nat × List Nat :=
  let ip4 := n.IP.To4
  let ip := if ip4.isSome then ip4.bytes else n.IP.bytes
  if ip4.isNone ∧ ip.length ≠ 16 then ([], [])
  else if n.Mask.length = 4 then
    (if ip.length ≠ 4 then ([], []) else (ip, n.Mask))
  else if n.Mask.length = 16 then
    (if ip.length = 4 then (ip, n.Mask.drop 12) else (ip, n.Mask))
  else ([], [])

/-- Go `net.IPNet.Contains`. -/
def IPNet.Contains (n : IPNet) (ip : Sbr.IP) : Bool :=
  let nm := networkNumberAndMask n
  let x := ip.To4
  let b := if x.isSome then x.bytes else ip.bytes
  if b.length ≠ nm.1.length then false
  else (List.zip (List.zip nm.1 nm.2) b).all (fun e => e.1.1 &&& e.1.2 == e.2 &&& e.1.2)

/-! ## Kernel objects (package `netlink`) -/

/-- Modelled from the spec: `netlink.Rule`, whose declaration is vendored
outside the source tree. Only the fields the plugin sets or reads are kept:
the destination table and the source predicate (`nil` when absent). -/
structure Rule where
  Table : Int
  Src : Option IPNet
deriving DecidableEq, Repr

/-- Modelled from the spec: `netlink.Route`, whose declaration is vendored
outside the source tree, with the fields the plugin sets or reads. -/
structure Route where
  Table : Int
  Dst : Option IPNet
  Src : IP
  Gw : IP
  LinkIndex : Int
  Flags : Int
deriving DecidableEq, Repr

/-- Modelled from the spec: `netlink.Link`, reduced to the interface index
(`link.Attrs().Index`). -/
structure Link where
  Index : Int
deriving DecidableEq, Repr

/-- Modelled from the spec: `netlink.Addr`, reduced to the address it embeds. -/
structure Addr where
  IP : IP
deriving DecidableEq, Repr

/-- The type `current.IPConfig` of the CNI result: optional interface index,
address and optional gateway. -/
structure IPConfig where
  Interface : Option Int
  Address : IPNet
  Gateway : IP
deriving DecidableEq, Repr

/-- An error reported by a kernel call. -/
abbrev KErr := String

/-- Failure of `LinkByName`: `netlink.LinkNotFoundError` or anything else. -/
inductive LinkErr where
  | notFound (msg : String)
  | other (e : KErr)
deriving DecidableEq, Repr

/-- The calls the plugin issues to the kernel. -/
inductive Call where
  | RuleList
  | RuleListFiltered (table : Int)
  | RouteList (link : Option Link)
  | LinkByName (name : String)
  | AddrList (link : Link)
  | RuleAdd (rule : Rule)
  | RuleDel (rule : Rule)
  | RouteAdd (route : Route)
  | RouteReplace (route : Route)
  | RouteDel (route : Route)
deriving DecidableEq, Repr

/-- The kernel as seen by one pass. A listing is issued at most once per pass
with given arguments, so its answer is a function of the arguments; the
outcome of a mutation (`none` is success) may depend on every call issued
before it. -/
structure Kernel where
  RuleList : Except KErr (List Rule)
  RuleListFiltered : Int → Except KErr (List Rule)
  RouteList : Option Link → Except KErr (List Route)
  LinkByName : String → Except LinkErr Link
  AddrList : Link → Except KErr (List Addr)
  mutate : List Call → Call → Option KErr

/-- The errors the passes return, one constructor per `fmt.Errorf` of the
source, carrying the values the message is formatted from. -/
inductive Error where
  | listAllRules (e : KErr)
  | listAllRoutes (e : KErr)
  | findInterface (iface : String) (e : LinkErr)
  | listRoutes (e : KErr)
  | addRule (e : KErr)
  | addDefaultRoute (gw : IP) (e : KErr)
  | readdRoute (e : KErr)
  | deleteRoute (e : KErr)
  | addRuleWithTable (e : KErr)
  | listRulesOfTable (table : Int) (e : KErr)
  | listAllRulesToTidy (e : KErr)
  | getLink (iface : String) (e : KErr)
  | listAddrs (e : KErr)
  | deleteRule (e : KErr)
deriving DecidableEq, Repr

/-! ## Table allocator -/

/-- The constant `firstTableID`. -/
def firstTableID : Int := 100

/-- The two inner loops of `getNextTableID`: is `table` the table of some rule
or of some route. -/
def foundExisting (rules : List Rule) (routes : List Route) (table : Int) : Bool :=
  rules.any (fun rule => rule.Table == table) ||
    routes.any (fun route => route.Table == table)

/-- The outer `for` loop of `getNextTableID`, one iteration per unit of fuel;
`none` when the fuel runs out before the loop breaks. -/
def getNextTableIDLoop (rules : List Rule) (routes : List Route) : Nat → Int → Option Int
  | 0, _ => none
  | fuel + 1, table =>
    if foundExisting rules routes table then
      getNextTableIDLoop rules routes fuel (wrapInt (table + 1))
    else
      some table

/-- The function `getNextTableID`: picks the first free table id from a given
candidate id. The loop is given one iteration more than there are rules and
routes, which is enough for it to break whenever some `int` is free
(`getNextTableID_total`). -/
def getNextTableID (rules : List Rule) (routes : List Route) (candidateID : Int) : Option Int :=
  getNextTableIDLoop rules routes (rules.length + routes.length + 1) candidateID

/-! ## Provisioning -/

/-- The source of a rule: the address restricted to a single IP
(`src.IP = ipCfg.Address.IP`, mask `/32` or `/128`). -/
def hostSrc (ipCfg : IPConfig) : IPNet :=
  { IP := ipCfg.Address.IP
    Mask := if ipCfg.Address.IP.To4.isSome then CIDRMask 32 32 else CIDRMask 128 128 }

/-- The rule built for one assignment: `netlink.NewRule()` with `Table` and
`Src` set. -/
def newRule (ipCfg : IPConfig) (table : Int) : Rule :=
  { Table := table, Src := some (hostSrc ipCfg) }

/-- The destination of the default route of one assignment. -/
def defaultDst (ipCfg : IPConfig) : IPNet :=
  if ipCfg.Address.IP.To4.isSome then { IP := IPv4zero, Mask := CIDRMask 0 32 }
  else { IP := IPv6zero, Mask := CIDRMask 0 128 }

/-- The default route built for one assignment that has a gateway. -/
def defaultRoute (ipCfg : IPConfig) (table linkIndex : Int) : Route :=
  { Dst := some (defaultDst ipCfg), Gw := ipCfg.Gateway, Table := table,
    LinkIndex := linkIndex, Src := none, Flags := 0 }

/-- The test deciding whether an interface route is copied for an assignment. -/
def routeMatches (ipCfg : IPConfig) (r : Route) : Bool :=
  ipCfg.Address.Contains r.Src || ipCfg.Address.Contains r.Gw ||
    (r.Src.isNone && r.Gw.isNone)

/-- The copy of a route placed in the table of an assignment: `r.Table = table`,
`r.Flags = 0` on the loop variable, the snapshot itself being left as it is. -/
def movedRoute (r : Route) (table : Int) : Route :=
  { r with Table := table, Flags := 0 }

/-- The gateway step of `doRoutes` for one assignment. -/
def addDefault (k : Kernel) (ipCfg : IPConfig) (table linkIndex : Int) (h : List Call) :
    List Call × Option Error :=
  if ipCfg.Gateway.isSome then
    match k.mutate h (.RouteAdd (defaultRoute ipCfg table linkIndex)) with
    | some e => (h ++ [.RouteAdd (defaultRoute ipCfg table linkIndex)],
        some (.addDefaultRoute ipCfg.Gateway e))
    | none => (h ++ [.RouteAdd (defaultRoute ipCfg table linkIndex)], none)
  else (h, none)

/-- The inner loop of `doRoutes` copying the interface routes to the table of
one assignment. -/
def copyRoutes (k : Kernel) (ipCfg : IPConfig) (table : Int) :
    List Route → List Call → List Call × Option Error
  | [], h => (h, none)
  | r :: rest, h =>
    if routeMatches ipCfg r then
      match k.mutate h (.RouteReplace (movedRoute r table)) with
      | some e => (h ++ [.RouteReplace (movedRoute r table)], some (.readdRoute e))
      | none => copyRoutes k ipCfg table rest (h ++ [.RouteReplace (movedRoute r table)])
    else copyRoutes k ipCfg table rest h

/-- The loop of `doRoutes` over the assignments. `rules` and `routes` are the
values of the variables of these names when the loop is entered; the result is
`none` when a table scan does not return. -/
def assignLoop (k : Kernel) (rules : List Rule) (routes : List Route) (linkIndex : Int) :
    List IPConfig → Int → List Call → Option (List Call × Option Error)
  | [], _, h => some (h, none)
  | ipCfg :: rest, table, h =>
    match k.mutate h (.RuleAdd (newRule ipCfg table)) with
    | some e => some (h ++ [.RuleAdd (newRule ipCfg table)], some (.addRule e))
    | none =>
      match addDefault k ipCfg table linkIndex (h ++ [.RuleAdd (newRule ipCfg table)]) with
      | (h2, some err) => some (h2, some err)
      | (h2, none) =>
        match copyRoutes k ipCfg table routes h2 with
        | (h3, some err) => some (h3, some err)
        | (h3, none) =>
          match getNextTableID rules routes (wrapInt (table + 1)) with
          | none => none
          | some next => assignLoop k rules routes linkIndex rest next h3

/-- The final loop of `doRoutes` deleting the interface routes. -/
def deleteRoutes (k : Kernel) : List Route → List Call → List Call × Option Error
  | [], h => (h, none)
  | route :: rest, h =>
    match k.mutate h (.RouteDel route) with
    | some e => (h ++ [.RouteDel route], some (.deleteRoute e))
    | none => deleteRoutes k rest (h ++ [.RouteDel route])

/-- The function `doRoutes`: the calls issued, in order, and the error
returned (`none` for nil); `none` when a table scan does not return. -/
def doRoutes (k : Kernel) (ipCfgs : List IPConfig) (iface : String) :
    Option (List Call × Option Error) :=
  match k.RuleList with
  | .error e => some ([.RuleList], some (.listAllRules e))
  | .ok rules =>
    match k.RouteList none with
    | .error e => some ([.RuleList, .RouteList none], some (.listAllRoutes e))
    | .ok routes =>
      match getNextTableID rules routes firstTableID with
      | none => none
      | some table =>
        match k.LinkByName iface with
        | .error e =>
          some ([.RuleList, .RouteList none, .LinkByName iface], some (.findInterface iface e))
        | .ok link =>
          match k.RouteList (some link) with
          | .error e =>
            some ([.RuleList, .RouteList none, .LinkByName iface, .RouteList (some link)],
              some (.listRoutes e))
          | .ok routes =>
            match assignLoop k rules routes link.Index ipCfgs table
                [.RuleList, .RouteList none, .LinkByName iface, .RouteList (some link)] with
            | none => none
            | some (h, some err) => some (h, some err)
            | some (h, none) => some (deleteRoutes k routes h)

/-- The function `doRoutesWithTable`. -/
def doRoutesWithTable (k : Kernel) (table : Int) :
    List IPConfig → List Call → List Call × Option Error
  | [], h => (h, none)
  | ipCfg :: rest, h =>
    match k.mutate h (.RuleAdd (newRule ipCfg table)) with
    | some e => (h ++ [.RuleAdd (newRule ipCfg table)], some (.addRuleWithTable e))
    | none => doRoutesWithTable k table rest (h ++ [.RuleAdd (newRule ipCfg table)])

/-! ## Teardown -/

/-- The inner loop of `tidyRules` over the addresses of the interface: does
the source of the rule equal one of them. -/
def srcOnInterface (src : IPNet) (addrs : List Addr) : Bool :=
  addrs.any (fun addr => src.IP.Equal addr.IP)

/-- The loop `RULE_LOOP` of `tidyRules`; `errReturn` is the variable of this
name. -/
def tidyLoop (k : Kernel) (addrs : List Addr) :
    List Rule → List Call → Option Error → List Call × Option Error
  | [], h, errReturn => (h, errReturn)
  | rule :: rest, h, errReturn =>
    match rule.Src with
    | none => tidyLoop k addrs rest h errReturn
    | some src =>
      if srcOnInterface src addrs then
        match k.mutate h (.RuleDel rule) with
        | some e => tidyLoop k addrs rest (h ++ [.RuleDel rule]) (some (.deleteRule e))
        | none => tidyLoop k addrs rest (h ++ [.RuleDel rule]) errReturn
      else tidyLoop k addrs rest h errReturn

/-- The listing step of `tidyRules`: the rules of the given table, or all
rules. -/
def tidyList (k : Kernel) (table : Option Int) : Call × Except Error (List Rule) :=
  match table with
  | some t =>
    (.RuleListFiltered t,
      match k.RuleListFiltered t with
      | .error e => .error (.listRulesOfTable t e)
      | .ok rules => .ok rules)
  | none =>
    (.RuleList,
      match k.RuleList with
      | .error e => .error (.listAllRulesToTidy e)
      | .ok rules => .ok rules)

/-- The function `tidyRules`: the calls issued, in order, and the error
returned (`none` for nil). -/
def tidyRules (k : Kernel) (iface : String) (table : Option Int) : List Call × Option Error :=
  match tidyList k table with
  | (c, .error err) => ([c], some err)
  | (c, .ok rules) =>
    match k.LinkByName iface with
    | .error (.notFound _) => ([c, .LinkByName iface], none)
    | .error (.other e) => ([c, .LinkByName iface], some (.getLink iface e))
    | .ok link =>
      match k.AddrList link with
      | .error e => ([c, .LinkByName iface, .AddrList link], some (.listAddrs e))
      | .ok addrs => tidyLoop k addrs rules [c, .LinkByName iface, .AddrList link] none

/-! ## Specification-side definitions -/

/-- Table fields of a snapshot of rules and routes. -/
def tablesOf (rules : List Rule) (routes : List Route) : List Int :=
  rules.map (fun rule => rule.Table) ++ routes.map (fun route => route.Table)

/-- Number of entries of `l` that are at least `c`. -/
def cntFrom (l : List Int) (c : Int) : Nat :=
  (l.filter (fun s => decide (c ≤ s))).length

/-- The error `doRoutes` returns when the mutation `c` fails with `e`; a
listing, which the lemmas never pass to it, is given the error of its own
failure. -/
def doRoutesErr : Call → KErr → Error
  | .RuleList, e => .listAllRules e
  | .RuleListFiltered t, e => .listRulesOfTable t e
  | .RouteList none, e => .listAllRoutes e
  | .RouteList (some _), e => .listRoutes e
  | .LinkByName n, e => .findInterface n (.other e)
  | .AddrList _, e => .listAddrs e
  | .RuleAdd _, e => .addRule e
  | .RuleDel _, e => .deleteRule e
  | .RouteAdd r, e => .addDefaultRoute r.Gw e
  | .RouteReplace _, e => .readdRoute e
  | .RouteDel _, e => .deleteRoute e

/-- Issues the calls of a list in order after the history `h`, stopping at
the first one that fails: the calls issued and the error of the failed call. -/
def runCalls (k : Kernel) (errOf : Call → KErr → Error) :
    List Call → List Call → List Call × Option Error
  | [], h => (h, none)
  | c :: cs, h =>
    match k.mutate h c with
    | some e => (h ++ [c], some (errOf c e))
    | none => runCalls k errOf cs (h ++ [c])

/-- Every call of the list, issued in order after the history `h`, succeeds. -/
def allSucceed (k : Kernel) : List Call → List Call → Bool
  | [], _ => true
  | c :: cs, h => (k.mutate h c).isNone && allSucceed k cs (h ++ [c])

/-- The calls of one assignment that is given the table `table`, in the order
of the specification: the rule, the default route when there is a gateway,
the copies of the matching interface routes. -/
def assignCalls (linkIndex : Int) (routes : List Route) (ipCfg : IPConfig) (table : Int) :
    List Call :=
  .RuleAdd (newRule ipCfg table) ::
    ((if ipCfg.Gateway.isSome then [.RouteAdd (defaultRoute ipCfg table linkIndex)] else []) ++
      (routes.filter (routeMatches ipCfg)).map (fun r => .RouteReplace (movedRoute r table)))

/-- The calls of all assignments, the i-th assignment being given the i-th
table. -/
def planAdds (linkIndex : Int) (routes : List Route) : List IPConfig → List Int → List Call
  | ipCfg :: rest, table :: tables =>
    assignCalls linkIndex routes ipCfg table ++ planAdds linkIndex routes rest tables
  | _, _ => []

/-- The tables given to the assignments when the first one is given `table`:
after each assignment the allocator is run again from the table just used
plus one. -/
def tableSeq (rules : List Rule) (routes : List Route) : List IPConfig → Int → Option (List Int)
  | [], _ => some []
  | _ :: rest, table =>
    match getNextTableID rules routes (wrapInt (table + 1)) with
    | none => none
    | some next => (tableSeq rules routes rest next).map (fun ts => table :: ts)

/-- The rules of the `RuleAdd` calls of a trace. -/
def ruleAdds (trace : List Call) : List Rule :=
  trace.filterMap (fun c => match c with | .RuleAdd r => some r | _ => none)

/-- The rules of the `RuleDel` calls of a trace. -/
def ruleDels (trace : List Call) : List Rule :=
  trace.filterMap (fun c => match c with | .RuleDel r => some r | _ => none)

/-- Is the call an `AddRule` or an `AddRoute`. -/
def isAdd : Call → Bool
  | .RuleAdd _ => true
  | .RouteAdd _ => true
  | _ => false

/-- Is the call a `DeleteRoute`. -/
def isRouteDel : Call → Bool
  | .RouteDel _ => true
  | _ => false

/-- The four listing and resolution calls that open a `doRoutes` pass. -/
def listing (iface : String) (link : Link) : List Call :=
  [.RuleList, .RouteList none, .LinkByName iface, .RouteList (some link)]

/-- The relation between the tables of two consecutive assignments. -/
def NextTable (rules : List Rule) (routes : List Route) (a b : Int) : Prop :=
  a < b ∧ getNextTableID rules routes (a + 1) = some b ∧ foundExisting rules routes b = false

/-- The rule the specification expects for an assignment: the given table,
and as source the IP of the assignment under a full-length mask, `/32` for an
IPv4 address and `/128` otherwise. -/
def hostRule (ipCfg : IPConfig) (table : Int) : Rule :=
  { Table := table
    Src := some
      { IP := ipCfg.Address.IP
        Mask := if ipCfg.Address.IP.To4.isSome then [255, 255, 255, 255]
          else List.replicate 16 255 } }

/-- The default route the specification expects for an assignment with the
gateway `gw`: destination `0.0.0.0/0` for an IPv4 address and `::/0`
otherwise, the gateway, the table of the assignment, the interface index. -/
def gatewayRoute (ipCfg : IPConfig) (gw : List Nat) (table linkIndex : Int) : Route :=
  { Table := table
    Dst := some (if ipCfg.Address.IP.To4.isSome then { IP := IPv4zero, Mask := [0, 0, 0, 0] }
      else { IP := IPv6zero, Mask := List.replicate 16 0 })
    Src := none
    Gw := some gw
    LinkIndex := linkIndex
    Flags := 0 }

/-- The `RuleAdd` and `RouteAdd` calls the specification expects, the i-th
assignment being given the i-th table: one rule per assignment, followed by
one default route when, and only when, the assignment carries a gateway. -/
def expectedAdds (linkIndex : Int) : List IPConfig → List Int → List Call
  | ipCfg :: rest, table :: tables =>
    .RuleAdd (hostRule ipCfg table) ::
      ((match ipCfg.Gateway with
        | some gw => [Call.RouteAdd (gatewayRoute ipCfg gw table linkIndex)]
        | none => []) ++ expectedAdds linkIndex rest tables)
  | _, _ => []

/-- The test of `tidyRules` on one rule: it has a source, and the source equals
an address of the interface. -/
def onInterface (addrs : List Addr) (rule : Rule) : Bool :=
  match rule.Src with
  | none => false
  | some src => addrs.any (fun addr => src.IP.Equal addr.IP)

/-- The error of the last call that fails when all the calls of a list are
issued in order after the history `h`, `acc` when none fails. -/
def lastFailure (k : Kernel) : List Call → List Call → Option KErr → Option KErr
  | [], _, acc => acc
  | c :: cs, h, acc =>
    lastFailure k cs (h ++ [c])
      (match k.mutate h c with
       | some e => some e
       | none => acc)

/-- A kernel that answers the listings from a fixed snapshot: the rules `R`
of the host, the routes `A` of the host, the interface `link` whatever the
name asked for, its routes `I` and its addresses `addrs`; the outcome of the
mutations is `mutate`. -/
def snapshotKernel (R : List Rule) (A I : List Route) (link : Link) (addrs : List Addr)
    (mutate : List Call → Call → Option KErr) : Kernel :=
  { RuleList := .ok R
    RuleListFiltered := fun t => .ok (R.filter (fun rule => rule.Table == t))
    RouteList := fun l =>
      match l with
      | none => .ok A
      | some _ => .ok I
    LinkByName := fun _ => .ok link
    AddrList := fun _ => .ok addrs
    mutate := mutate }

/-- A kernel on which no interface exists: the rule listings answer `R` and
interface resolution reports `netlink.LinkNotFoundError`. -/
def noLinkKernel (R : List Rule) : Kernel :=
  { RuleList := .ok R
    RuleListFiltered := fun t => .ok (R.filter (fun rule => rule.Table == t))
    RouteList := fun _ => .ok []
    LinkByName := fun _ => .error (.notFound "Link not found")
    AddrList := fun _ => .ok []
    mutate := fun _ _ => none }

/-! ## Sample inputs -/

/-- A sample host rule set: one rule, on table 100. -/
def sampleRules : List Rule := [⟨100, none⟩]

/-- Sample assignments: `10.0.0.5/24` with the gateway `10.0.0.1`, and
`2001:db8::5/64` without a gateway. -/
def sampleCfgs : List IPConfig :=
  [⟨none, ⟨some [10, 0, 0, 5], [255, 255, 255, 0]⟩, some [10, 0, 0, 1]⟩,
   ⟨none, ⟨some [32, 1, 13, 184, 0, 0, 0, 0, 0, 0, 0, 0, 0, 0, 0, 5],
     [255, 255, 255, 255, 255, 255, 255, 255, 0, 0, 0, 0, 0, 0, 0, 0]⟩, none⟩]

/-- A sample interface: index 3. -/
def sampleLink : Link := ⟨3⟩

/-- Sample interface routes: the route to `10.0.0.0/24` in the main table. -/
def sampleRoutes : List Route :=
  [⟨254, some ⟨some [10, 0, 0, 0], [255, 255, 255, 0]⟩, none, none, 3, 0⟩]

/-- Sample listed rules: one with the source `10.0.0.5`, one without a source
and one with the source `192.168.1.9`. -/
def listedRules : List Rule :=
  [⟨100, some ⟨some [10, 0, 0, 5], [255, 255, 255, 255]⟩⟩, ⟨0, none⟩,
   ⟨300, some ⟨some [192, 168, 1, 9], [255, 255, 255, 255]⟩⟩]

/-- Sample interface addresses: `10.0.0.5` in its 16-byte form. -/
def sampleAddrs : List Addr := [⟨some [0, 0, 0, 0, 0, 0, 0, 0, 0, 0, 255, 255, 10, 0, 0, 5]⟩]

/-- Sample outcome of the mutations: every deletion fails, the rest succeeds. -/
def sampleBusy : List Call → Call → Option KErr :=
  fun _ c =>
    match c with
    | .RouteDel _ => some "busy"
    | .RuleDel _ => some "busy"
    | _ => none

/-! ## Lemmas on the allocator -/

theorem foundExisting_iff (rules : List Rule) (routes : List Route) (t : Int) :
    foundExisting rules routes t = true ↔ t ∈ tablesOf rules routes := by
  simp only [foundExisting, tablesOf, Bool.or_eq_true, List.any_eq_true, beq_iff_eq,
    List.mem_append, List.mem_map]

theorem tablesOf_length (rules : List Rule) (routes : List Route) :
    (tablesOf rules routes).length = rules.length + routes.length := by
  simp [tablesOf]

theorem wrapInt_succ (t : Int) (h1 : minInt ≤ t) (h2 : t < maxInt) :
    wrapInt (t + 1) = t + 1 := by
  unfold wrapInt
  unfold minInt at h1
  unfold maxInt at h2
  omega

theorem cntFrom_le_length (l : List Int) (c : Int) : cntFrom l c ≤ l.length := by
  unfold cntFrom
  exact List.length_filter_le _ _

theorem cntFrom_succ_le (l : List Int) (c : Int) : cntFrom l (c + 1) ≤ cntFrom l c := by
  induction l with
  | nil => simp [cntFrom]
  | cons a l ih =>
    unfold cntFrom at ih ⊢
    by_cases h1 : c + 1 ≤ a
    · have h2 : c ≤ a := by omega
      simp [List.filter_cons, h1, h2, ih]
    · by_cases h2 : c ≤ a
      · simp [List.filter_cons, h1, h2]
        omega
      · simp [List.filter_cons, h1, h2, ih]

theorem cntFrom_succ_lt (l : List Int) (c : Int) (h : c ∈ l) :
    cntFrom l (c + 1) + 1 ≤ cntFrom l c := by
  induction l with
  | nil => simp at h
  | cons a l ih =>
    by_cases hac : a = c
    · subst hac
      have := cntFrom_succ_le l a
      unfold cntFrom at this ⊢
      simp [List.filter_cons]
      omega
    · have hmem : c ∈ l := by
        rcases List.mem_cons.mp h with h | h
        · exact absurd h.symm hac
        · exact h
      have ih2 := ih hmem
      unfold cntFrom at ih2 ⊢
      by_cases h1 : c + 1 ≤ a
      · have h2 : c ≤ a := by omega
        simp [List.filter_cons, h1, h2]
        omega
      · have h2 : ¬ c ≤ a := by omega
        simp [List.filter_cons, h1, h2]
        omega

/-- A run of `n` consecutive used values starting at `c` accounts for `n`
entries of the list. -/
theorem cntFrom_run (l : List Int) : ∀ (n : Nat) (c : Int),
    (∀ s, c ≤ s → s < c + n → s ∈ l) → cntFrom l (c + n) + n ≤ cntFrom l c := by
  intro n
  induction n with
  | zero => intro c _; simp
  | succ n ih =>
    intro c hrun
    have hc : c ∈ l := hrun c (le_refl _) (by push_cast; omega)
    have h1 := cntFrom_succ_lt l c hc
    have h2 := ih (c + 1) (by
      intro s hs1 hs2
      exact hrun s (by omega) (by push_cast; omega))
    have e : c + 1 + (n : Int) = c + ((n + 1 : Nat) : Int) := by push_cast; omega
    rw [e] at h2
    omega

/-- The loop started at `c` with a run of `n` used values followed by a free
one returns that free value, provided the scan stays within the range of `int`
and the fuel exceeds `n`. -/
theorem getNextTableIDLoop_run (rules : List Rule) (routes : List Route) :
    ∀ (n fuel : Nat) (c : Int), n < fuel → minInt ≤ c → c + n ≤ maxInt →
      (∀ s, c ≤ s → s < c + n → foundExisting rules routes s = true) →
      foundExisting rules routes (c + n) = false →
      getNextTableIDLoop rules routes fuel c = some (c + n) := by
  intro n
  induction n with
  | zero =>
    intro fuel c hf _ _ _ hfree
    obtain ⟨f, rfl⟩ : ∃ f, fuel = f + 1 := ⟨fuel - 1, by omega⟩
    simp at hfree
    simp [getNextTableIDLoop, hfree]
  | succ n ih =>
    intro fuel c hf hmin hmax hrun hfree
    obtain ⟨f, rfl⟩ : ∃ f, fuel = f + 1 := ⟨fuel - 1, by omega⟩
    have hc : foundExisting rules routes c = true := hrun c (le_refl _) (by push_cast; omega)
    have hw : wrapInt (c + 1) = c + 1 := wrapInt_succ c hmin (by push_cast at hmax; omega)
    have e : c + 1 + (n : Int) = c + ((n + 1 : Nat) : Int) := by push_cast; omega
    have h2 := ih f (c + 1) (by omega) (by omega) (by rw [e]; exact hmax)
      (by
        intro s hs1 hs2
        exact hrun s (by omega) (by rw [← e]; exact hs2))
      (by rw [e]; exact hfree)
    simp only [getNextTableIDLoop, hc, if_true, hw, h2, e]

/-- Below a free value `b` there is a least free value at or above `c`. -/
theorem exists_least_free (p : Int → Bool) : ∀ (n : Nat) (c b : Int),
    b = c + n → p b = false →
    ∃ m : Nat, c + m ≤ b ∧ p (c + m) = false ∧ ∀ s, c ≤ s → s < c + m → p s = true := by
  intro n
  induction n with
  | zero =>
    intro c b hb hfree
    refine ⟨0, by simp [hb], by simpa [hb] using hfree, ?_⟩
    intro s h1 h2
    simp at h2
    omega
  | succ n ih =>
    intro c b hb hfree
    by_cases hc : p c = false
    · refine ⟨0, by simp [hb]; omega, by simpa using hc, ?_⟩
      intro s h1 h2
      simp at h2
      omega
    · have hc2 : p c = true := by simpa using hc
      obtain ⟨m, hm1, hm2, hm3⟩ := ih (c + 1) b (by rw [hb]; push_cast; omega) hfree
      refine ⟨m + 1, by push_cast; omega, ?_, ?_⟩
      · have e : c + ((m + 1 : Nat) : Int) = c + 1 + m := by push_cast; omega
        rw [e]; exact hm2
      · intro s h1 h2
        by_cases hs : s = c
        · rw [hs]; exact hc2
        · exact hm3 s (by omega) (by push_cast at h2; omega)

/-- The allocator returns the least free table at or above the candidate
whenever some table between the candidate and the largest `int` is free. -/
theorem getNextTableID_least (rules : List Rule) (routes : List Route) (c b : Int)
    (hc : minInt ≤ c) (hcb : c ≤ b) (hb : b ≤ maxInt)
    (hfree : foundExisting rules routes b = false) :
    ∃ t, getNextTableID rules routes c = some t ∧ c ≤ t ∧ t ≤ b ∧
      foundExisting rules routes t = false ∧
      ∀ s, c ≤ s → s < t → foundExisting rules routes s = true := by
  obtain ⟨m, hm1, hm2, hm3⟩ := exists_least_free (foundExisting rules routes)
    (b - c).toNat c b (by omega) hfree
  have hrun : ∀ s, c ≤ s → s < c + m → s ∈ tablesOf rules routes := fun s h1 h2 =>
    (foundExisting_iff rules routes s).mp (hm3 s h1 h2)
  have hcnt := cntFrom_run (tablesOf rules routes) m c hrun
  have hlen := cntFrom_le_length (tablesOf rules routes) c
  rw [tablesOf_length] at hlen
  refine ⟨c + m, ?_, by omega, hm1, hm2, hm3⟩
  unfold getNextTableID
  exact getNextTableIDLoop_run rules routes m _ c (by omega) hc (by omega) hm3 hm2

/-- A candidate whose potential `c + cntFrom l c` fits in an `int` has a free
table above it that fits too, `l` holding every table in use. -/
theorem exists_free_of_potential (p : Int → Bool) (l : List Int)
    (hsub : ∀ s, p s = true → s ∈ l) : ∀ (n : Nat) (c : Int),
    cntFrom l c ≤ n → c + cntFrom l c ≤ maxInt →
    ∃ b, c ≤ b ∧ b ≤ maxInt ∧ p b = false := by
  intro n
  induction n with
  | zero =>
    intro c h0 hmax
    refine ⟨c, le_refl _, by omega, ?_⟩
    by_contra hp
    have hmem : c ∈ l := hsub c (by simpa using hp)
    have := cntFrom_succ_lt l c hmem
    omega
  | succ n ih =>
    intro c hn hmax
    by_cases hp : p c = false
    · exact ⟨c, le_refl _, by omega, hp⟩
    · have hmem : c ∈ l := hsub c (by simpa using hp)
      have h1 := cntFrom_succ_lt l c hmem
      obtain ⟨b, hb1, hb2, hb3⟩ := ih (c + 1) (by omega) (by omega)
      exact ⟨b, by omega, hb2, hb3⟩

/-- One scan of the allocator from a candidate whose potential fits in an
`int`: it returns the least free table, and the potential does not grow. -/
theorem getNextTableID_potential (rules : List Rule) (routes : List Route) (l : List Int)
    (hsub : ∀ s, foundExisting rules routes s = true → s ∈ l) (c : Int)
    (hc : minInt ≤ c) (hmax : c + cntFrom l c ≤ maxInt) :
    ∃ t, getNextTableID rules routes c = some t ∧ c ≤ t ∧
      foundExisting rules routes t = false ∧
      (∀ s, c ≤ s → s < t → foundExisting rules routes s = true) ∧
      t + cntFrom l t ≤ c + cntFrom l c := by
  obtain ⟨b, hb1, hb2, hb3⟩ :=
    exists_free_of_potential (foundExisting rules routes) l hsub _ c (le_refl _) hmax
  obtain ⟨t, ht1, ht2, _, ht4, ht5⟩ := getNextTableID_least rules routes c b hc hb1 hb2 hb3
  refine ⟨t, ht1, ht2, ht4, ht5, ?_⟩
  have hrun := cntFrom_run l (t - c).toNat c (by
    intro s h1 h2
    exact hsub s (ht5 s h1 (by omega)))
  have e : c + ((t - c).toNat : Int) = t := by omega
  rw [e] at hrun
  omega

theorem cntFrom_mono (l : List Int) : ∀ (n : Nat) (a : Int), cntFrom l (a + n) ≤ cntFrom l a := by
  intro n
  induction n with
  | zero => intro a; simp
  | succ n ih =>
    intro a
    have h1 := ih (a + 1)
    have h2 := cntFrom_succ_le l a
    have e : a + 1 + (n : Int) = a + ((n + 1 : Nat) : Int) := by push_cast; omega
    rw [e] at h1
    omega

theorem wrapInt_range (x : Int) : minInt ≤ wrapInt x ∧ wrapInt x ≤ maxInt := by
  unfold wrapInt minInt maxInt
  omega

theorem wrapInt_max : wrapInt (maxInt + 1) = minInt := by decide

/-- A scan that finds every table from `c` to the largest `int` in use wraps
around and goes on from the smallest `int`. -/
theorem getNextTableIDLoop_wrap (rules : List Rule) (routes : List Route) :
    ∀ (n fuel : Nat) (c : Int), minInt ≤ c → c + n = maxInt →
      (∀ s, c ≤ s → s ≤ maxInt → foundExisting rules routes s = true) →
      getNextTableIDLoop rules routes (fuel + n + 1) c =
        getNextTableIDLoop rules routes fuel minInt := by
  intro n
  induction n with
  | zero =>
    intro fuel c hmin hc hrun
    have hc2 : c = maxInt := by simpa using hc
    have hf := hrun c (le_refl _) (by omega)
    simp only [getNextTableIDLoop, hf, if_true, Nat.add_zero]
    rw [hc2, wrapInt_max]
  | succ n ih =>
    intro fuel c hmin hc hrun
    have hf := hrun c (le_refl _) (by push_cast at hc; omega)
    have hw : wrapInt (c + 1) = c + 1 := wrapInt_succ c hmin (by push_cast at hc; omega)
    have e : fuel + (n + 1) + 1 = (fuel + n + 1) + 1 := by omega
    rw [e]
    simp only [getNextTableIDLoop, hf, if_true, hw]
    exact ih fuel (c + 1) (by omega) (by push_cast at hc; omega)
      (fun s h1 h2 => hrun s (by omega) h2)

/-- The scan returns whenever the snapshot has fewer than `2 ^ 64` entries, as
the slices of a Go program have: some `int` is then free, and the fuel given
to the loop suffices to reach it, around the largest `int` if need be. -/
theorem getNextTableID_total (rules : List Rule) (routes : List Route) (c : Int)
    (hc1 : minInt ≤ c) (hc2 : c ≤ maxInt)
    (hlen : rules.length + routes.length < 18446744073709551616) :
    ∃ t, getNextTableID rules routes c = some t ∧ minInt ≤ t ∧ t ≤ maxInt ∧
      foundExisting rules routes t = false := by
  have hmin : minInt = -9223372036854775808 := rfl
  have hmax : maxInt = 9223372036854775807 := rfl
  by_cases hA : ∃ b, c ≤ b ∧ b ≤ maxInt ∧ foundExisting rules routes b = false
  · obtain ⟨b, hb1, hb2, hb3⟩ := hA
    obtain ⟨t, h1, h2, h3, h4, _⟩ := getNextTableID_least rules routes c b hc1 hb1 hb2 hb3
    exact ⟨t, h1, by omega, by omega, h4⟩
  · have hall : ∀ s, c ≤ s → s ≤ maxInt → foundExisting rules routes s = true := by
      intro s h1 h2
      by_contra hs
      exact hA ⟨s, h1, h2, by simpa using hs⟩
    have hsub : ∀ s, foundExisting rules routes s = true → s ∈ tablesOf rules routes :=
      fun s hs => (foundExisting_iff rules routes s).mp hs
    have hlenT := tablesOf_length rules routes
    have hcnt0 := cntFrom_le_length (tablesOf rules routes) minInt
    obtain ⟨b, hb1, hb2, hb3⟩ := exists_free_of_potential (foundExisting rules routes)
      (tablesOf rules routes) hsub _ minInt (le_refl _) (by omega)
    obtain ⟨m, hm1, hm2, hm3⟩ := exists_least_free (foundExisting rules routes)
      (b - minInt).toNat minInt b (by omega) hb3
    have hbc : b < c := by
      by_contra hge
      have := hall b (by omega) hb2
      rw [hb3] at this
      exact Bool.false_ne_true this
    obtain ⟨n1, hn1⟩ : ∃ n1 : Nat, c + n1 = maxInt := ⟨(maxInt - c).toNat, by omega⟩
    obtain ⟨n2, hn2⟩ : ∃ n2 : Nat, minInt + m + n2 = c := ⟨(c - (minInt + m)).toNat, by omega⟩
    have hrun2 := cntFrom_run (tablesOf rules routes) m minInt
      (fun s h1 h2 => hsub s (hm3 s h1 h2))
    have hmono := cntFrom_mono (tablesOf rules routes) n2 (minInt + m)
    rw [hn2] at hmono
    have hrun1 := cntFrom_run (tablesOf rules routes) (n1 + 1) c
      (fun s h1 h2 => hsub s (hall s h1 (by push_cast at h2; omega)))
    have hfuel : rules.length + routes.length + 1 =
        (rules.length + routes.length - n1) + n1 + 1 := by omega
    unfold getNextTableID
    rw [hfuel, getNextTableIDLoop_wrap rules routes n1 _ c hc1 hn1 hall]
    have := getNextTableIDLoop_run rules routes m
      (rules.length + routes.length - n1) minInt (by omega) (le_refl _)
      (by omega) hm3 hm2
    exact ⟨minInt + m, this, by omega, by omega, hm2⟩

/-- The tables of the assignments exist, one per assignment, each obtained
from the previous one by the allocator, as long as the potential of the first
one leaves room for one increment per assignment. -/
theorem tableSeq_exists (rules : List Rule) (routes : List Route) (l : List Int)
    (hsub : ∀ s, foundExisting rules routes s = true → s ∈ l) :
    ∀ (ipCfgs : List IPConfig) (t : Int), minInt ≤ t →
      t + cntFrom l t + ipCfgs.length ≤ maxInt →
      ∃ ts, tableSeq rules routes ipCfgs t = some ts ∧ ts.length = ipCfgs.length ∧
        List.Chain' (NextTable rules routes) ts ∧ ∀ x ∈ ts.head?, x = t := by
  intro ipCfgs
  induction ipCfgs with
  | nil =>
    intro t _ _
    exact ⟨[], rfl, rfl, List.chain'_nil, by simp⟩
  | cons c rest ih =>
    intro t hmin hmax
    simp only [List.length_cons] at hmax
    push_cast at hmax
    have hw : wrapInt (t + 1) = t + 1 := wrapInt_succ t hmin (by omega)
    have hstep := cntFrom_succ_le l t
    obtain ⟨next, hn1, hn2, hn3, _, hn5⟩ :=
      getNextTableID_potential rules routes l hsub (t + 1) (by omega) (by omega)
    obtain ⟨ts, hts1, hts2, hts3, hts4⟩ := ih next (by omega) (by omega)
    refine ⟨t :: ts, ?_, by simp [hts2], ?_, by simp⟩
    · simp [tableSeq, hw, hn1, hts1]
    · rw [List.chain'_cons']
      refine ⟨?_, hts3⟩
      intro y hy
      rw [hts4 y hy]
      exact ⟨by omega, hn1, hn3⟩

theorem tableSeq_total (rules : List Rule) (routes : List Route)
    (hlen : rules.length + routes.length < 18446744073709551616) :
    ∀ (ipCfgs : List IPConfig) (t : Int),
      ∃ ts, tableSeq rules routes ipCfgs t = some ts ∧ ts.length = ipCfgs.length := by
  intro ipCfgs
  induction ipCfgs with
  | nil => intro t; exact ⟨[], rfl, rfl⟩
  | cons c rest ih =>
    intro t
    obtain ⟨next, hn, _, _, _⟩ := getNextTableID_total rules routes (wrapInt (t + 1))
      (wrapInt_range _).1 (wrapInt_range _).2 hlen
    obtain ⟨ts, h1, h2⟩ := ih next
    exact ⟨t :: ts, by simp [tableSeq, hn, h1], by simp [h2]⟩

/-- Every table scan of a pass returns when the snapshot has fewer than
`2 ^ 64` entries. -/
theorem doRoutes_tables_total (ipCfgs : List IPConfig) (R : List Rule) (A I : List Route)
    (hlen : R.length + A.length + I.length < 18446744073709551616) :
    ∃ t0 ts, getNextTableID R A firstTableID = some t0 ∧
      tableSeq R I ipCfgs t0 = some ts ∧ ts.length = ipCfgs.length := by
  obtain ⟨t0, h1, _, _, _⟩ := getNextTableID_total R A firstTableID (by decide) (by decide)
    (by omega)
  obtain ⟨ts, h2, h3⟩ := tableSeq_total R I (by omega) ipCfgs t0
  exact ⟨t0, ts, h1, h2, h3⟩

/-! ## Lemmas on the passes -/

theorem runCalls_append (k : Kernel) (errOf : Call → KErr → Error) :
    ∀ (a b h : List Call), runCalls k errOf (a ++ b) h =
      match runCalls k errOf a h with
      | (h2, none) => runCalls k errOf b h2
      | (h2, some e) => (h2, some e) := by
  intro a
  induction a with
  | nil => intro b h; rfl
  | cons c cs ih =>
    intro b h
    simp only [List.cons_append, runCalls]
    cases hm : k.mutate h c with
    | some e => rfl
    | none => exact ih b (h ++ [c])

theorem runCalls_allSucceed (k : Kernel) (errOf : Call → KErr → Error) :
    ∀ (a h : List Call), allSucceed k a h = true → runCalls k errOf a h = (h ++ a, none) := by
  intro a
  induction a with
  | nil => intro h _; simp [runCalls]
  | cons c cs ih =>
    intro h hs
    simp only [allSucceed, Bool.and_eq_true, Option.isNone_iff_eq_none] at hs
    simp only [runCalls, hs.1]
    rw [ih (h ++ [c]) hs.2]
    simp

theorem runCalls_fail (k : Kernel) (errOf : Call → KErr → Error) :
    ∀ (a h : List Call), allSucceed k a h = false →
      ∃ pre c post e, a = pre ++ c :: post ∧ allSucceed k pre h = true ∧
        k.mutate (h ++ pre) c = some e ∧
        runCalls k errOf a h = (h ++ pre ++ [c], some (errOf c e)) := by
  intro a
  induction a with
  | nil => intro h hs; simp [allSucceed] at hs
  | cons c cs ih =>
    intro h hs
    cases hm : k.mutate h c with
    | some e =>
      exact ⟨[], c, cs, e, rfl, rfl, by simpa using hm, by simp [runCalls, hm]⟩
    | none =>
      have hs2 : allSucceed k cs (h ++ [c]) = false := by
        simpa [allSucceed, hm] using hs
      obtain ⟨pre, d, post, e, h1, h2, h3, h4⟩ := ih (h ++ [c]) hs2
      refine ⟨c :: pre, d, post, e, by simp [h1], ?_, ?_, ?_⟩
      · simp [allSucceed, hm, h2]
      · simpa using h3
      · simp only [runCalls, hm]
        rw [h4]
        simp

theorem allSucceed_append (k : Kernel) :
    ∀ (a b h : List Call), allSucceed k (a ++ b) h =
      (allSucceed k a h && allSucceed k b (h ++ a)) := by
  intro a
  induction a with
  | nil => intro b h; simp [allSucceed]
  | cons c cs ih =>
    intro b h
    have e : h ++ c :: cs = h ++ [c] ++ cs := by simp
    simp only [List.cons_append, allSucceed, List.append_eq, ih, Bool.and_assoc, e]

theorem copyRoutes_eq (k : Kernel) (ipCfg : IPConfig) (table : Int) :
    ∀ (routes : List Route) (h : List Call), copyRoutes k ipCfg table routes h =
      runCalls k doRoutesErr
        ((routes.filter (routeMatches ipCfg)).map (fun r => .RouteReplace (movedRoute r table)))
        h := by
  intro routes
  induction routes with
  | nil => intro h; rfl
  | cons r rest ih =>
    intro h
    by_cases hr : routeMatches ipCfg r = true
    · simp only [copyRoutes, hr, if_true, List.filter_cons, List.map_cons, runCalls]
      cases hm : k.mutate h (.RouteReplace (movedRoute r table)) with
      | some e => rfl
      | none => exact ih _
    · simp only [copyRoutes, hr, List.filter_cons, Bool.false_eq_true, if_false]
      exact ih h

theorem deleteRoutes_eq (k : Kernel) :
    ∀ (routes : List Route) (h : List Call), deleteRoutes k routes h =
      runCalls k doRoutesErr (routes.map .RouteDel) h := by
  intro routes
  induction routes with
  | nil => intro h; rfl
  | cons r rest ih =>
    intro h
    simp only [deleteRoutes, List.map_cons, runCalls]
    cases hm : k.mutate h (.RouteDel r) with
    | some e => rfl
    | none => exact ih _

theorem addDefault_eq (k : Kernel) (ipCfg : IPConfig) (table linkIndex : Int) (h : List Call) :
    addDefault k ipCfg table linkIndex h =
      runCalls k doRoutesErr
        (if ipCfg.Gateway.isSome then [.RouteAdd (defaultRoute ipCfg table linkIndex)] else [])
        h := by
  unfold addDefault
  by_cases hg : ipCfg.Gateway.isSome = true
  · simp only [hg, if_true, runCalls]
    cases hm : k.mutate h (.RouteAdd (defaultRoute ipCfg table linkIndex)) with
    | some e => rfl
    | none => rfl
  · simp only [hg, Bool.false_eq_true, if_false, runCalls]

/-- The loop over the assignments issues the planned calls in order, stopping
at the first failure. -/
theorem assignLoop_eq (k : Kernel) (rules : List Rule) (routes : List Route) (linkIndex : Int) :
    ∀ (ipCfgs : List IPConfig) (table : Int) (h : List Call) (ts : List Int),
      tableSeq rules routes ipCfgs table = some ts →
      assignLoop k rules routes linkIndex ipCfgs table h =
        some (runCalls k doRoutesErr (planAdds linkIndex routes ipCfgs ts) h) := by
  intro ipCfgs
  induction ipCfgs with
  | nil =>
    intro table h ts hts
    simp [tableSeq] at hts
    subst hts
    rfl
  | cons c rest ih =>
    intro table h ts hts
    simp only [tableSeq] at hts
    cases hn : getNextTableID rules routes (wrapInt (table + 1)) with
    | none => simp [hn] at hts
    | some next =>
      simp only [hn, Option.map_eq_some'] at hts
      obtain ⟨ts2, hts2, rfl⟩ := hts
      simp only [assignLoop, planAdds, assignCalls, List.cons_append, runCalls, List.append_eq]
      cases hm : k.mutate h (.RuleAdd (newRule c table)) with
      | some e => rfl
      | none =>
        simp only []
        rw [List.append_assoc, runCalls_append, ← addDefault_eq]
        rcases hd : addDefault k c table linkIndex (h ++ [.RuleAdd (newRule c table)])
          with ⟨h2, _ | err⟩
        · rw [hd]
          simp only []
          rw [runCalls_append, ← copyRoutes_eq]
          rcases hc : copyRoutes k c table routes h2 with ⟨h3, _ | err⟩
          · simp only [hn]
            exact ih next h3 ts2 hts2
          · rfl
        · rw [hd]

/-- A pass that gets its four listings answered issues the planned calls of
the assignments and then the deletions, in order, stopping at the first
failure. -/
theorem doRoutes_eq (k : Kernel) (ipCfgs : List IPConfig) (iface : String)
    (R : List Rule) (A I : List Route) (link : Link) (t0 : Int) (ts : List Int)
    (hR : k.RuleList = .ok R) (hA : k.RouteList none = .ok A)
    (hL : k.LinkByName iface = .ok link) (hI : k.RouteList (some link) = .ok I)
    (ht0 : getNextTableID R A firstTableID = some t0)
    (hts : tableSeq R I ipCfgs t0 = some ts) :
    doRoutes k ipCfgs iface =
      some (runCalls k doRoutesErr
        (planAdds link.Index I ipCfgs ts ++ I.map .RouteDel) (listing iface link)) := by
  unfold doRoutes
  simp only [hR, hA, ht0, hL, hI]
  rw [assignLoop_eq k R I link.Index ipCfgs t0 _ ts hts, runCalls_append]
  unfold listing
  rcases hr : runCalls k doRoutesErr (planAdds link.Index I ipCfgs ts)
    [.RuleList, .RouteList none, .LinkByName iface, .RouteList (some link)] with ⟨h2, _ | err⟩
  · simp only [deleteRoutes_eq]
  · rfl

/-- When the snapshot and the assignments leave room below the largest `int`,
every table scan of a pass returns: the first table is the least free one
from `firstTableID` in the whole-host snapshot, and each later table is
obtained from the previous one against the rules and the interface routes. -/
theorem doRoutes_tables (ipCfgs : List IPConfig) (R : List Rule) (A I : List Route)
    (hfit : (100 : Int) + ipCfgs.length + R.length + A.length + I.length ≤ maxInt) :
    ∃ t0 ts, getNextTableID R A firstTableID = some t0 ∧
      tableSeq R I ipCfgs t0 = some ts ∧ ts.length = ipCfgs.length ∧
      List.Chain' (NextTable R I) ts ∧ (∀ x ∈ ts.head?, x = t0) ∧
      100 ≤ t0 ∧ foundExisting R A t0 = false := by
  have hsubA : ∀ s, foundExisting R A s = true → s ∈ tablesOf R (A ++ I) := by
    intro s hs
    have := (foundExisting_iff R A s).mp hs
    simp only [tablesOf, List.mem_append, List.map_append] at this ⊢
    tauto
  have hsubI : ∀ s, foundExisting R I s = true → s ∈ tablesOf R (A ++ I) := by
    intro s hs
    have := (foundExisting_iff R I s).mp hs
    simp only [tablesOf, List.mem_append, List.map_append] at this ⊢
    tauto
  have hlen := cntFrom_le_length (tablesOf R (A ++ I)) 100
  rw [tablesOf_length, List.length_append] at hlen
  have hmin : minInt ≤ (100 : Int) := by unfold minInt; omega
  obtain ⟨t0, h1, h2, h3, _, h5⟩ :=
    getNextTableID_potential R A (tablesOf R (A ++ I)) hsubA 100 hmin (by omega)
  obtain ⟨ts, g1, g2, g3, g4⟩ :=
    tableSeq_exists R I (tablesOf R (A ++ I)) hsubI ipCfgs t0 (by omega) (by omega)
  exact ⟨t0, ts, h1, g1, g2, g3, g4, h2, h3⟩

theorem foundExisting_eq_false_iff (rules : List Rule) (routes : List Route) (t : Int) :
    foundExisting rules routes t = false ↔
      (∀ rule ∈ rules, rule.Table ≠ t) ∧ (∀ route ∈ routes, route.Table ≠ t) := by
  rw [← Bool.not_eq_true, foundExisting_iff]
  simp only [tablesOf, List.mem_append, List.mem_map, not_or, not_exists, not_and]

theorem allSucceed_of_ok (k : Kernel) (hok : ∀ h c, k.mutate h c = none) :
    ∀ (a h : List Call), allSucceed k a h = true := by
  intro a
  induction a with
  | nil => intro h; rfl
  | cons c cs ih => intro h; simp [allSucceed, hok, ih]

theorem hostSrc_eq (ipCfg : IPConfig) :
    hostSrc ipCfg =
      { IP := ipCfg.Address.IP
        Mask := if ipCfg.Address.IP.To4.isSome then [255, 255, 255, 255]
          else List.replicate 16 255 } := by
  unfold hostSrc
  have h1 : CIDRMask 32 32 = [255, 255, 255, 255] := by decide
  have h2 : CIDRMask 128 128 = List.replicate 16 255 := by decide
  rw [h1, h2]

theorem ruleAdds_append (a b : List Call) : ruleAdds (a ++ b) = ruleAdds a ++ ruleAdds b := by
  simp [ruleAdds, List.filterMap_append]

theorem ruleAdds_assignCalls (linkIndex : Int) (routes : List Route) (ipCfg : IPConfig)
    (table : Int) : ruleAdds (assignCalls linkIndex routes ipCfg table) = [newRule ipCfg table] := by
  unfold assignCalls
  have h1 : ∀ l : List Route,
      ruleAdds (l.map (fun r => Call.RouteReplace (movedRoute r table))) = [] := by
    intro l
    induction l with
    | nil => rfl
    | cons r rest _ => simp [ruleAdds]
  have e : ∀ (x : Call) (l : List Call), x :: l = [x] ++ l := fun _ _ => rfl
  rw [e, ruleAdds_append, ruleAdds_append, h1]
  by_cases hg : ipCfg.Gateway.isSome = true
  · simp [hg, ruleAdds]
  · simp [hg, ruleAdds]

theorem ruleAdds_planAdds (linkIndex : Int) (routes : List Route) :
    ∀ (ipCfgs : List IPConfig) (ts : List Int),
      ruleAdds (planAdds linkIndex routes ipCfgs ts) = List.zipWith newRule ipCfgs ts := by
  intro ipCfgs
  induction ipCfgs with
  | nil => intro ts; rfl
  | cons c rest ih =>
    intro ts
    cases ts with
    | nil => rfl
    | cons t ts =>
      simp only [planAdds, ruleAdds_append, ruleAdds_assignCalls, ih, List.zipWith_cons_cons,
        List.singleton_append]

theorem ruleAdds_routeDel (routes : List Route) : ruleAdds (routes.map .RouteDel) = [] := by
  induction routes with
  | nil => rfl
  | cons r rest _ => simp [ruleAdds]

theorem ruleAdds_listing (iface : String) (link : Link) : ruleAdds (listing iface link) = [] := rfl

theorem newRule_eq_hostRule : newRule = hostRule := by
  funext ipCfg t
  simp only [newRule, hostRule, hostSrc_eq]

theorem defaultRoute_eq (ipCfg : IPConfig) (gw : List Nat) (table linkIndex : Int)
    (hg : ipCfg.Gateway = some gw) :
    defaultRoute ipCfg table linkIndex = gatewayRoute ipCfg gw table linkIndex := by
  have h1 : CIDRMask 0 32 = [0, 0, 0, 0] := by decide
  have h2 : CIDRMask 0 128 = List.replicate 16 0 := by decide
  simp only [defaultRoute, gatewayRoute, defaultDst, hg, h1, h2]

/-- The calls issued by `runCalls` are the history followed by an initial
segment of the list. -/
theorem runCalls_trace (k : Kernel) (errOf : Call → KErr → Error) :
    ∀ (l h : List Call), ∃ pre, pre <+: l ∧ (runCalls k errOf l h).1 = h ++ pre := by
  intro l
  induction l with
  | nil => intro h; exact ⟨[], List.nil_prefix, by simp [runCalls]⟩
  | cons c cs ih =>
    intro h
    cases hm : k.mutate h c with
    | some e =>
      refine ⟨[c], ?_, by simp [runCalls, hm]⟩
      exact ⟨cs, rfl⟩
    | none =>
      obtain ⟨pre, hp1, hp2⟩ := ih (h ++ [c])
      refine ⟨c :: pre, ?_, ?_⟩
      · obtain ⟨t, ht⟩ := hp1
        exact ⟨t, by simp [← ht]⟩
      · simp only [runCalls, hm, hp2]
        simp

/-- Fail-fast execution of a list of calls obtained by `map`: either every
call succeeds, or the calls issued stop at the first element whose call
fails. -/
theorem runCalls_map {α : Type} (k : Kernel) (errOf : Call → KErr → Error) (f : α → Call) :
    ∀ (l : List α) (h : List Call),
      (allSucceed k (l.map f) h = true ∧ runCalls k errOf (l.map f) h = (h ++ l.map f, none)) ∨
      (∃ pre x post e, l = pre ++ x :: post ∧ allSucceed k (pre.map f) h = true ∧
        k.mutate (h ++ pre.map f) (f x) = some e ∧
        runCalls k errOf (l.map f) h = (h ++ (pre ++ [x]).map f, some (errOf (f x) e))) := by
  intro l
  induction l with
  | nil => intro h; left; simp [allSucceed, runCalls]
  | cons a rest ih =>
    intro h
    cases hm : k.mutate h (f a) with
    | some e =>
      right
      exact ⟨[], a, rest, e, rfl, rfl, by simpa using hm, by simp [runCalls, hm]⟩
    | none =>
      rcases ih (h ++ [f a]) with ⟨h1, h2⟩ | ⟨pre, x, post, e, h1, h2, h3, h4⟩
      · left
        refine ⟨by simp [allSucceed, hm, h1], ?_⟩
        simp only [List.map_cons, runCalls, hm, h2]
        simp
      · right
        refine ⟨a :: pre, x, post, e, by simp [h1], by simp [allSucceed, hm, h2], ?_, ?_⟩
        · simpa using h3
        · simp only [List.map_cons, runCalls, hm, h4]
          simp

theorem planAdds_not_routeDel (linkIndex : Int) (routes : List Route) :
    ∀ (ipCfgs : List IPConfig) (ts : List Int),
      ∀ c ∈ planAdds linkIndex routes ipCfgs ts, isRouteDel c = false := by
  intro ipCfgs
  induction ipCfgs with
  | nil => intro ts c hc; simp [planAdds] at hc
  | cons a rest ih =>
    intro ts c hc
    cases ts with
    | nil => simp [planAdds] at hc
    | cons t ts =>
      simp only [planAdds, assignCalls, List.mem_append, List.mem_cons, List.mem_map,
        List.mem_filter] at hc
      rcases hc with (rfl | hc | ⟨r, _, rfl⟩) | hc
      · rfl
      · by_cases hg : a.Gateway.isSome = true
        · simp [hg] at hc
          subst hc
          rfl
        · simp [hg] at hc
      · rfl
      · exact ih ts c hc

theorem filter_isAdd_planAdds (linkIndex : Int) (routes : List Route) :
    ∀ (ipCfgs : List IPConfig) (ts : List Int),
      (planAdds linkIndex routes ipCfgs ts).filter isAdd = expectedAdds linkIndex ipCfgs ts := by
  intro ipCfgs
  induction ipCfgs with
  | nil => intro ts; rfl
  | cons a rest ih =>
    intro ts
    cases ts with
    | nil => rfl
    | cons t ts =>
      have hcopy : ∀ l : List Route,
          (l.map (fun r => Call.RouteReplace (movedRoute r t))).filter isAdd = [] := by
        intro l
        induction l with
        | nil => rfl
        | cons r l ihl => simp [List.filter_cons, isAdd, ihl]
      simp only [planAdds, assignCalls, expectedAdds, List.filter_append, List.filter_cons,
        isAdd, if_true, ih, hcopy, List.append_nil, List.cons_append, newRule_eq_hostRule]
      cases hg : a.Gateway with
      | none => simp
      | some gw => simp [isAdd, defaultRoute_eq a gw t linkIndex hg]

theorem filter_isAdd_routeDel (routes : List Route) :
    (routes.map Call.RouteDel).filter isAdd = [] := by
  induction routes with
  | nil => rfl
  | cons r l ih => simp [List.filter_cons, isAdd, ih]

theorem doRoutesWithTable_eq (k : Kernel) (table : Int) :
    ∀ (ipCfgs : List IPConfig) (h : List Call), doRoutesWithTable k table ipCfgs h =
      runCalls k (fun _ e => .addRuleWithTable e)
        (ipCfgs.map (fun c => Call.RuleAdd (hostRule c table))) h := by
  intro ipCfgs
  induction ipCfgs with
  | nil => intro h; rfl
  | cons c rest ih =>
    intro h
    simp only [doRoutesWithTable, List.map_cons, runCalls, newRule_eq_hostRule]
    cases hm : k.mutate h (.RuleAdd (hostRule c table)) with
    | some e => rfl
    | none =>
      exact ih _

theorem not_routeDel_listing (iface : String) (link : Link) :
    ∀ c ∈ listing iface link, isRouteDel c = false := by
  intro c hc
  simp only [listing, List.mem_cons, List.mem_singleton, List.not_mem_nil, or_false] at hc
  rcases hc with rfl | rfl | rfl | rfl <;> rfl

theorem lastFailure_of_allSucceed (k : Kernel) :
    ∀ (l h : List Call) (acc : Option KErr), allSucceed k l h = true →
      lastFailure k l h acc = acc := by
  intro l
  induction l with
  | nil => intro h acc _; rfl
  | cons c cs ih =>
    intro h acc hs
    simp only [allSucceed, Bool.and_eq_true, Option.isNone_iff_eq_none] at hs
    simp only [lastFailure, hs.1]
    exact ih _ _ hs.2

theorem lastFailure_append (k : Kernel) :
    ∀ (a b h : List Call) (acc : Option KErr),
      lastFailure k (a ++ b) h acc = lastFailure k b (h ++ a) (lastFailure k a h acc) := by
  intro a
  induction a with
  | nil => intro b h acc; simp [lastFailure]
  | cons c cs ih =>
    intro b h acc
    simp only [List.cons_append, lastFailure, List.append_eq, ih]
    simp

theorem lastFailure_eq_none_iff (k : Kernel) :
    ∀ (l h : List Call) (acc : Option KErr),
      lastFailure k l h acc = none ↔ acc = none ∧ allSucceed k l h = true := by
  intro l
  induction l with
  | nil => intro h acc; simp [lastFailure, allSucceed]
  | cons c cs ih =>
    intro h acc
    simp only [lastFailure, allSucceed, ih, Bool.and_eq_true, Option.isNone_iff_eq_none]
    cases hm : k.mutate h c with
    | some e => simp
    | none => simp

/-- The loop of `tidyRules` attempts the deletion of exactly the rules that
pass the test, in list order, whatever the outcome of the deletions, and
returns the error of the last deletion that failed. -/
theorem tidyLoop_eq (k : Kernel) (addrs : List Addr) :
    ∀ (rules : List Rule) (h : List Call) (acc : Option KErr),
      tidyLoop k addrs rules h (acc.map Error.deleteRule) =
        (h ++ (rules.filter (onInterface addrs)).map Call.RuleDel,
          (lastFailure k ((rules.filter (onInterface addrs)).map Call.RuleDel) h acc).map
            Error.deleteRule) := by
  intro rules
  induction rules with
  | nil => intro h acc; simp [tidyLoop, lastFailure]
  | cons rule rest ih =>
    intro h acc
    cases hsrc : rule.Src with
    | none =>
      have hon : onInterface addrs rule = false := by simp [onInterface, hsrc]
      simp only [tidyLoop, hsrc, List.filter_cons, hon, Bool.false_eq_true, if_false]
      exact ih h acc
    | some src =>
      by_cases hon : srcOnInterface src addrs = true
      · have hon2 : onInterface addrs rule = true := by
          simpa [onInterface, hsrc, srcOnInterface] using hon
        simp only [tidyLoop, hsrc, hon, if_true, List.filter_cons, hon2, List.map_cons,
          lastFailure]
        cases hm : k.mutate h (.RuleDel rule) with
        | some e =>
          have := ih (h ++ [.RuleDel rule]) (some e)
          simp only [Option.map_some'] at this
          simp only [this]
          simp
        | none =>
          simp only [ih (h ++ [.RuleDel rule]) acc]
          simp
      · have hon2 : onInterface addrs rule = false := by
          simpa [onInterface, hsrc, srcOnInterface] using hon
        simp only [tidyLoop, hsrc, hon, List.filter_cons, hon2, Bool.false_eq_true, if_false]
        exact ih h acc

/-- The teardown pass once its three listings are answered. -/
theorem tidyRules_eq (k : Kernel) (iface : String) (table : Option Int)
    (rules : List Rule) (link : Link) (addrs : List Addr)
    (hlist : (tidyList k table).2 = .ok rules) (hlink : k.LinkByName iface = .ok link)
    (haddrs : k.AddrList link = .ok addrs) :
    tidyRules k iface table =
      ([(tidyList k table).1, .LinkByName iface, .AddrList link] ++
          (rules.filter (onInterface addrs)).map Call.RuleDel,
        (lastFailure k ((rules.filter (onInterface addrs)).map Call.RuleDel)
          [(tidyList k table).1, .LinkByName iface, .AddrList link] none).map
            Error.deleteRule) := by
  rcases hl : tidyList k table with ⟨c, err | rs⟩
  · rw [hl] at hlist
    cases hlist
  · rw [hl] at hlist
    cases hlist
    simp only [tidyRules, hl, hlink, haddrs]
    exact tidyLoop_eq k addrs rules _ none

theorem onInterface_iff (addrs : List Addr) (rule : Rule) :
    onInterface addrs rule = true ↔
      ∃ src, rule.Src = some src ∧ ∃ addr ∈ addrs, src.IP.Equal addr.IP = true := by
  unfold onInterface
  cases hsrc : rule.Src with
  | none => simp
  | some src => simp [List.any_eq_true]

theorem ruleDels_teardown (c1 c2 c3 : Call) (l : List Rule)
    (h1 : ruleDels [c1] = []) (h2 : ruleDels [c2] = []) (h3 : ruleDels [c3] = []) :
    ruleDels ([c1, c2, c3] ++ l.map Call.RuleDel) = l := by
  have hmap : ruleDels (l.map Call.RuleDel) = l := by
    induction l with
    | nil => rfl
    | cons r rest ih =>
      simp only [ruleDels, List.map_cons, List.filterMap_cons] at ih ⊢
      rw [ih]
  have e : [c1, c2, c3] ++ l.map Call.RuleDel = [c1] ++ ([c2] ++ ([c3] ++ l.map Call.RuleDel)) :=
    rfl
  have happ : ∀ a b : List Call, ruleDels (a ++ b) = ruleDels a ++ ruleDels b := by
    intro a b
    simp [ruleDels, List.filterMap_append]
  rw [e, happ, happ, happ, h1, h2, h3, hmap]
  rfl

theorem tidyList_fst_not_ruleDel (k : Kernel) (table : Option Int) :
    ruleDels [(tidyList k table).1] = [] ∧ ∀ r, (tidyList k table).1 ≠ Call.RuleDel r := by
  cases table with
  | none => exact ⟨rfl, fun r h => by simp [tidyList] at h⟩
  | some t => exact ⟨rfl, fun r h => by simp [tidyList] at h⟩

theorem tidyList_mutate (k : Kernel) (m : List Call → Call → Option KErr) (table : Option Int) :
    tidyList { k with mutate := m } table = tidyList k table := by
  cases table <;> rfl

/-! ## Table allocator: claims -/

/-- C1, counterexample. With the candidate at the largest `int` and that
table in use by a rule, `table++` wraps around and the allocator returns the
smallest `int`, which is below the candidate. -/
theorem getNextTableID_wraps_below_candidate :
    getNextTableID [{ Table := 9223372036854775807, Src := none }] [] 9223372036854775807
        = some (-9223372036854775808) ∧
      ¬ ((9223372036854775807 : Int) ≤ -9223372036854775808) := by
  decide

/-- C1, as amended. For every list of rules, every list of routes and every
candidate `C` such that some table `b` with `C ≤ b ≤ maxInt` is the table of
no rule and of no route, `getNextTableID` returns the smallest integer
`t ≥ C` that is the table of no rule and of no route. -/
theorem getNextTableID_smallest_free (rules : List Rule) (routes : List Route) (C b : Int)
    (hC : minInt ≤ C) (hCb : C ≤ b) (hb : b ≤ maxInt)
    (hrule : ∀ rule ∈ rules, rule.Table ≠ b) (hroute : ∀ route ∈ routes, route.Table ≠ b) :
    ∃ t, getNextTableID rules routes C = some t ∧ C ≤ t ∧
      (∀ rule ∈ rules, rule.Table ≠ t) ∧ (∀ route ∈ routes, route.Table ≠ t) ∧
      ∀ s, C ≤ s → (∀ rule ∈ rules, rule.Table ≠ s) → (∀ route ∈ routes, route.Table ≠ s) →
        t ≤ s := by
  obtain ⟨t, h1, h2, _, h4, h5⟩ := getNextTableID_least rules routes C b hC hCb hb
    ((foundExisting_eq_false_iff rules routes b).mpr ⟨hrule, hroute⟩)
  have h4b := (foundExisting_eq_false_iff rules routes t).mp h4
  refine ⟨t, h1, h2, h4b.1, h4b.2, ?_⟩
  intro s hs1 hs2 hs3
  by_contra hlt
  have := h5 s hs1 (by omega)
  rw [(foundExisting_eq_false_iff rules routes s).mpr ⟨hs2, hs3⟩] at this
  exact Bool.false_ne_true this

/-- C1, witness: rules on tables 100 and 101, a route in table 102, candidate
100, table 200 free. -/
theorem getNextTableID_smallest_free_witness :
    ∃ t, getNextTableID [⟨100, none⟩, ⟨101, none⟩] [⟨102, none, none, none, 1, 0⟩] 100 = some t ∧
      (100 : Int) ≤ t ∧
      (∀ rule ∈ [(⟨100, none⟩ : Rule), ⟨101, none⟩], rule.Table ≠ t) ∧
      (∀ route ∈ [(⟨102, none, none, none, 1, 0⟩ : Route)], route.Table ≠ t) ∧
      ∀ s, (100 : Int) ≤ s →
        (∀ rule ∈ [(⟨100, none⟩ : Rule), ⟨101, none⟩], rule.Table ≠ s) →
        (∀ route ∈ [(⟨102, none, none, none, 1, 0⟩ : Route)], route.Table ≠ s) → t ≤ s :=
  getNextTableID_smallest_free [⟨100, none⟩, ⟨101, none⟩] [⟨102, none, none, none, 1, 0⟩]
    100 200 (by decide) (by decide) (by decide) (by decide) (by decide)

/-! ## Provisioning: claims -/

/-- C2, the pass at the failing input. Host snapshot: no rule, one route in
table 101 on another interface; the interface itself has no route; two
assignments. The first rule gets table 100 and the second gets table 101,
the table of a route of the whole-host snapshot: after the first allocation
the variable `routes` holds the interface routes only. -/
theorem doRoutes_second_table_in_host_snapshot :
    doRoutes
      (snapshotKernel []
        [⟨101, some ⟨some [192, 168, 7, 0], [255, 255, 255, 0]⟩, none, none, 7, 0⟩]
        [] ⟨3⟩ [] (fun _ _ => none))
      [⟨none, ⟨some [10, 0, 0, 5], [255, 255, 255, 0]⟩, none⟩,
       ⟨none, ⟨some [10, 0, 0, 6], [255, 255, 255, 0]⟩, none⟩]
      "eth0"
    = some ([.RuleList, .RouteList none, .LinkByName "eth0", .RouteList (some ⟨3⟩),
        .RuleAdd ⟨100, some ⟨some [10, 0, 0, 5], [255, 255, 255, 255]⟩⟩,
        .RuleAdd ⟨101, some ⟨some [10, 0, 0, 6], [255, 255, 255, 255]⟩⟩],
      none) := by
  decide

/-- C3. For every list of N assignments, a `doRoutes` pass in which every
kernel call succeeds (on a snapshot of fewer than `2 ^ 64` entries, as Go
slices are) returns nil after issuing exactly N `RuleAdd` calls, the i-th
with source the IP of the i-th assignment under a full-length mask (`/32` for
an IPv4 address, `/128` otherwise: `hostRule`). As long as the snapshot and
the assignments leave room below the largest `int`, so that `table++` does
not wrap around, the tables of these rules are strictly increasing in
assignment order, hence pairwise distinct, each later table being what
`getNextTableID` returns for the previous table plus one. -/
theorem doRoutes_one_rule_per_assignment (k : Kernel) (ipCfgs : List IPConfig) (iface : String)
    (R : List Rule) (A I : List Route) (link : Link)
    (hR : k.RuleList = .ok R) (hA : k.RouteList none = .ok A)
    (hL : k.LinkByName iface = .ok link) (hI : k.RouteList (some link) = .ok I)
    (hok : ∀ h c, k.mutate h c = none)
    (hlen : R.length + A.length + I.length < 18446744073709551616) :
    ∃ (trace : List Call) (ts : List Int),
      doRoutes k ipCfgs iface = some (trace, none) ∧
      (ruleAdds trace).length = ipCfgs.length ∧ ts.length = ipCfgs.length ∧
      ruleAdds trace = List.zipWith hostRule ipCfgs ts ∧
      ((100 : Int) + ipCfgs.length + R.length + A.length + I.length ≤ maxInt →
        List.Pairwise (fun a b => a < b) ts ∧ ts.Nodup ∧
        List.Chain' (fun a b => getNextTableID R I (a + 1) = some b ∧ a < b) ts) := by
  obtain ⟨t0, ts, h1, h2, h3⟩ := doRoutes_tables_total ipCfgs R A I hlen
  have hrun := doRoutes_eq k ipCfgs iface R A I link t0 ts hR hA hL hI h1 h2
  rw [runCalls_allSucceed k doRoutesErr _ _ (allSucceed_of_ok k hok _ _)] at hrun
  have hadds : ruleAdds (listing iface link ++ (planAdds link.Index I ipCfgs ts ++
      I.map .RouteDel)) = List.zipWith newRule ipCfgs ts := by
    rw [ruleAdds_append, ruleAdds_append, ruleAdds_planAdds, ruleAdds_routeDel,
      ruleAdds_listing]
    simp
  refine ⟨_, ts, hrun, ?_, h3, ?_, ?_⟩
  · rw [hadds]
    simp [h3]
  · rw [hadds, newRule_eq_hostRule]
  · intro hfit
    obtain ⟨t1, ts1, g1, g2, _, g4, _, _, _⟩ := doRoutes_tables ipCfgs R A I hfit
    rw [h1] at g1
    cases g1
    rw [h2] at g2
    cases g2
    have hlt : List.Chain' (fun a b : Int => a < b) ts :=
      List.Chain'.imp (fun a b hab => hab.1) g4
    have hpw : List.Pairwise (fun a b : Int => a < b) ts := List.chain'_iff_pairwise.mp hlt
    exact ⟨hpw, hpw.imp (fun hab => ne_of_lt hab),
      List.Chain'.imp (fun a b hab => ⟨hab.2.1, hab.1⟩) g4⟩

/-- C3, witness: an IPv4 and an IPv6 assignment on a host where table 100 is
in use by a rule. -/
theorem doRoutes_one_rule_per_assignment_witness :
    ∃ (trace : List Call) (ts : List Int),
      doRoutes (snapshotKernel sampleRules [] [] sampleLink [] (fun _ _ => none)) sampleCfgs "eth0" = some (trace, none) ∧
      (ruleAdds trace).length = sampleCfgs.length ∧ ts.length = sampleCfgs.length ∧
      ruleAdds trace = List.zipWith hostRule sampleCfgs ts ∧
      ((100 : Int) + sampleCfgs.length + sampleRules.length + ([] : List Route).length + ([] : List Route).length ≤ maxInt →
        List.Pairwise (fun a b => a < b) ts ∧ ts.Nodup ∧
        List.Chain' (fun a b => getNextTableID sampleRules ([] : List Route) (a + 1) = some b ∧ a < b) ts) :=
  doRoutes_one_rule_per_assignment
    (snapshotKernel sampleRules [] [] sampleLink [] (fun _ _ => none))
    sampleCfgs "eth0" sampleRules [] [] sampleLink rfl rfl rfl rfl (fun _ _ => rfl) (by decide)

/-- C4, the pass at two failing inputs. (1) No assignment and one interface
route in the default table: the route is deleted and no `RouteReplace` is
issued at all. (2) One assignment `10.0.0.5/24` and one interface route whose
gateway `192.168.1.1` is outside the address of the assignment: the route is
not copied to the table of the assignment, and it is deleted. -/
theorem doRoutes_deletes_routes_not_copied :
    doRoutes
      (snapshotKernel [] []
        [⟨254, some ⟨some [10, 0, 0, 0], [255, 255, 255, 0]⟩, none, none, 3, 0⟩]
        ⟨3⟩ [] (fun _ _ => none))
      [] "eth0"
    = some ([.RuleList, .RouteList none, .LinkByName "eth0", .RouteList (some ⟨3⟩),
        .RouteDel ⟨254, some ⟨some [10, 0, 0, 0], [255, 255, 255, 0]⟩, none, none, 3, 0⟩],
      none) ∧
    doRoutes
      (snapshotKernel [] []
        [⟨254, some ⟨some [172, 16, 0, 0], [255, 255, 0, 0]⟩, none, some [192, 168, 1, 1], 3, 0⟩]
        ⟨3⟩ [] (fun _ _ => none))
      [⟨none, ⟨some [10, 0, 0, 5], [255, 255, 255, 0]⟩, none⟩]
      "eth0"
    = some ([.RuleList, .RouteList none, .LinkByName "eth0", .RouteList (some ⟨3⟩),
        .RuleAdd ⟨100, some ⟨some [10, 0, 0, 5], [255, 255, 255, 255]⟩⟩,
        .RouteDel ⟨254, some ⟨some [172, 16, 0, 0], [255, 255, 0, 0]⟩, none,
          some [192, 168, 1, 1], 3, 0⟩],
      none) := by
  decide

/-- C5, counterexample. Two interface routes, one assignment, every `RuleAdd`
and `RouteReplace` succeeding and every `RouteDel` failing: the pass stops at
the first failed deletion, and no `RouteDel` is ever issued for the second
route of the snapshot although all the calls of the assignments succeeded. -/
theorem doRoutes_stops_at_failed_delete :
    doRoutes
      (snapshotKernel [] []
        [⟨254, some ⟨some [10, 0, 0, 0], [255, 255, 255, 0]⟩, none, none, 3, 0⟩,
         ⟨254, some ⟨some [10, 0, 1, 0], [255, 255, 255, 0]⟩, none, none, 3, 0⟩]
        ⟨3⟩ [] (fun _ c => if isRouteDel c then some "busy" else none))
      [⟨none, ⟨some [10, 0, 0, 5], [255, 255, 255, 0]⟩, none⟩]
      "eth0"
    = some ([.RuleList, .RouteList none, .LinkByName "eth0", .RouteList (some ⟨3⟩),
        .RuleAdd ⟨100, some ⟨some [10, 0, 0, 5], [255, 255, 255, 255]⟩⟩,
        .RouteReplace ⟨100, some ⟨some [10, 0, 0, 0], [255, 255, 255, 0]⟩, none, none, 3, 0⟩,
        .RouteReplace ⟨100, some ⟨some [10, 0, 1, 0], [255, 255, 255, 0]⟩, none, none, 3, 0⟩,
        .RouteDel ⟨254, some ⟨some [10, 0, 0, 0], [255, 255, 255, 0]⟩, none, none, 3, 0⟩],
      some (.deleteRoute "busy")) := by
  decide

/-- C5, as amended. In `doRoutes` no `RouteDel` is issued before the
`RuleAdd`, `RouteAdd` and `RouteReplace` calls of all assignments (the list
`planAdds`, which holds no `RouteDel`) have succeeded. If one of them fails,
the pass stops there and returns its error, no `RouteDel` being in the trace.
If they all succeed, `RouteDel` is then issued for the routes of the
interface-route snapshot in snapshot order, each at most once and carrying
the route as it is in the snapshot (its snapshot table); the deletions stop
after the first one that fails, whose error is returned; when every deletion
succeeds too, exactly one `RouteDel` has been issued for each route of the
snapshot and the pass returns nil. (The snapshot has fewer than `2 ^ 64`
entries, as Go slices have, so that the table scans return.) -/
theorem doRoutes_deletes_after_adds (k : Kernel) (ipCfgs : List IPConfig) (iface : String)
    (R : List Rule) (A I : List Route) (link : Link)
    (hR : k.RuleList = .ok R) (hA : k.RouteList none = .ok A)
    (hL : k.LinkByName iface = .ok link) (hI : k.RouteList (some link) = .ok I)
    (hlen : R.length + A.length + I.length < 18446744073709551616) :
    ∃ (ts : List Int) (trace : List Call) (res : Option Error),
      ts.length = ipCfgs.length ∧ doRoutes k ipCfgs iface = some (trace, res) ∧
      (∀ c ∈ planAdds link.Index I ipCfgs ts, isRouteDel c = false) ∧
      (allSucceed k (planAdds link.Index I ipCfgs ts) (listing iface link) = false →
        (∀ c ∈ trace, isRouteDel c = false) ∧
        ∃ pre c post e, planAdds link.Index I ipCfgs ts = pre ++ c :: post ∧
          k.mutate (listing iface link ++ pre) c = some e ∧
          trace = listing iface link ++ pre ++ [c] ∧ res = some (doRoutesErr c e)) ∧
      (allSucceed k (planAdds link.Index I ipCfgs ts) (listing iface link) = true →
        (allSucceed k (I.map Call.RouteDel)
            (listing iface link ++ planAdds link.Index I ipCfgs ts) = true ∧
          trace = listing iface link ++ planAdds link.Index I ipCfgs ts ++
            I.map Call.RouteDel ∧
          res = none) ∨
        (∃ pre r post e, I = pre ++ r :: post ∧
          allSucceed k (pre.map Call.RouteDel)
            (listing iface link ++ planAdds link.Index I ipCfgs ts) = true ∧
          k.mutate (listing iface link ++ planAdds link.Index I ipCfgs ts ++
            pre.map Call.RouteDel) (.RouteDel r) = some e ∧
          trace = listing iface link ++ planAdds link.Index I ipCfgs ts ++
            (pre ++ [r]).map Call.RouteDel ∧
          res = some (.deleteRoute e))) := by
  obtain ⟨t0, ts, h1, h2, h3⟩ := doRoutes_tables_total ipCfgs R A I hlen
  have hrun := doRoutes_eq k ipCfgs iface R A I link t0 ts hR hA hL hI h1 h2
  rw [runCalls_append] at hrun
  have hno := planAdds_not_routeDel link.Index I ipCfgs ts
  cases hall : allSucceed k (planAdds link.Index I ipCfgs ts) (listing iface link) with
  | false =>
    obtain ⟨pre, c, post, e, g1, _, g3, g4⟩ := runCalls_fail k doRoutesErr _ _ hall
    rw [g4] at hrun
    refine ⟨ts, _, _, h3, hrun, hno, ?_, ?_⟩
    · intro _
      refine ⟨?_, pre, c, post, e, g1, g3, rfl, rfl⟩
      intro x hx
      simp only [List.mem_append, List.mem_singleton] at hx
      rcases hx with (hx | hx) | hx
      · exact not_routeDel_listing iface link x hx
      · exact hno x (by rw [g1]; simp [hx])
      · exact hno x (by rw [g1, hx]; simp)
    · intro hcontra
      exact Bool.noConfusion (hall.symm.trans hcontra)
  | true =>
    rw [runCalls_allSucceed k doRoutesErr _ _ hall] at hrun
    simp only [] at hrun
    rcases runCalls_map k doRoutesErr Call.RouteDel I
        (listing iface link ++ planAdds link.Index I ipCfgs ts)
      with ⟨g1, g2⟩ | ⟨pre, r, post, e, g1, g2, g3, g4⟩
    · rw [g2] at hrun
      refine ⟨ts, _, _, h3, hrun, hno, ?_, ?_⟩
      · intro hcontra
        exact Bool.noConfusion (hall.symm.trans hcontra)
      · intro _
        exact Or.inl ⟨g1, rfl, rfl⟩
    · rw [g4] at hrun
      refine ⟨ts, _, _, h3, hrun, hno, ?_, ?_⟩
      · intro hcontra
        exact Bool.noConfusion (hall.symm.trans hcontra)
      · intro _
        exact Or.inr ⟨pre, r, post, e, g1, g2, g3, rfl, rfl⟩

/-- C5, witness: the sample assignments, one interface route, every deletion
failing. -/
theorem doRoutes_deletes_after_adds_witness :
    ∃ (ts : List Int) (trace : List Call) (res : Option Error),
      ts.length = sampleCfgs.length ∧ doRoutes (snapshotKernel sampleRules [] sampleRoutes sampleLink [] sampleBusy) sampleCfgs "eth0" = some (trace, res) ∧
      (∀ c ∈ planAdds sampleLink.Index sampleRoutes sampleCfgs ts, isRouteDel c = false) ∧
      (allSucceed (snapshotKernel sampleRules [] sampleRoutes sampleLink [] sampleBusy) (planAdds sampleLink.Index sampleRoutes sampleCfgs ts) (listing "eth0" sampleLink) = false →
        (∀ c ∈ trace, isRouteDel c = false) ∧
        ∃ pre c post e, planAdds sampleLink.Index sampleRoutes sampleCfgs ts = pre ++ c :: post ∧
          (snapshotKernel sampleRules [] sampleRoutes sampleLink [] sampleBusy).mutate (listing "eth0" sampleLink ++ pre) c = some e ∧
          trace = listing "eth0" sampleLink ++ pre ++ [c] ∧ res = some (doRoutesErr c e)) ∧
      (allSucceed (snapshotKernel sampleRules [] sampleRoutes sampleLink [] sampleBusy) (planAdds sampleLink.Index sampleRoutes sampleCfgs ts) (listing "eth0" sampleLink) = true →
        (allSucceed (snapshotKernel sampleRules [] sampleRoutes sampleLink [] sampleBusy) (sampleRoutes.map Call.RouteDel)
            (listing "eth0" sampleLink ++ planAdds sampleLink.Index sampleRoutes sampleCfgs ts) = true ∧
          trace = listing "eth0" sampleLink ++ planAdds sampleLink.Index sampleRoutes sampleCfgs ts ++
            sampleRoutes.map Call.RouteDel ∧
          res = none) ∨
        (∃ pre r post e, sampleRoutes = pre ++ r :: post ∧
          allSucceed (snapshotKernel sampleRules [] sampleRoutes sampleLink [] sampleBusy) (pre.map Call.RouteDel)
            (listing "eth0" sampleLink ++ planAdds sampleLink.Index sampleRoutes sampleCfgs ts) = true ∧
          (snapshotKernel sampleRules [] sampleRoutes sampleLink [] sampleBusy).mutate (listing "eth0" sampleLink ++ planAdds sampleLink.Index sampleRoutes sampleCfgs ts ++
            pre.map Call.RouteDel) (.RouteDel r) = some e ∧
          trace = listing "eth0" sampleLink ++ planAdds sampleLink.Index sampleRoutes sampleCfgs ts ++
            (pre ++ [r]).map Call.RouteDel ∧
          res = some (.deleteRoute e))) :=
  doRoutes_deletes_after_adds
    (snapshotKernel sampleRules [] sampleRoutes sampleLink [] sampleBusy)
    sampleCfgs "eth0" sampleRules [] sampleRoutes sampleLink rfl rfl rfl rfl (by decide)

/-- C6. In a `doRoutes` pass the `RuleAdd` and `RouteAdd` calls issued are an
initial segment of `expectedAdds`, and all of it when every kernel call
succeeds: for every assignment, its rule, followed by exactly one `RouteAdd`
if the assignment carries a gateway (destination `0.0.0.0/0` when the
address is IPv4 and `::/0` otherwise, the gateway of the assignment, the
table of the rule just installed, the resolved interface index) and by no
`RouteAdd` if it carries none. Scenario: address `10.0.0.5/32`, gateway
`10.0.0.1`, interface index 3, no table in use, gives the rule
`src = 10.0.0.5/32, table = 100` and the route
`dst = 0.0.0.0/0, gw = 10.0.0.1, table = 100, link = 3`. (The snapshot has
fewer than `2 ^ 64` entries, as Go slices have, so that the table scans
return.) -/
theorem doRoutes_default_route_per_gateway (k : Kernel) (ipCfgs : List IPConfig) (iface : String)
    (R : List Rule) (A I : List Route) (link : Link)
    (hR : k.RuleList = .ok R) (hA : k.RouteList none = .ok A)
    (hL : k.LinkByName iface = .ok link) (hI : k.RouteList (some link) = .ok I)
    (hlen : R.length + A.length + I.length < 18446744073709551616) :
    ∃ (ts : List Int) (trace : List Call) (res : Option Error),
      ts.length = ipCfgs.length ∧ doRoutes k ipCfgs iface = some (trace, res) ∧
      trace.filter isAdd <+: expectedAdds link.Index ipCfgs ts ∧
      ((∀ h c, k.mutate h c = none) →
        trace.filter isAdd = expectedAdds link.Index ipCfgs ts ∧ res = none) ∧
      doRoutes (snapshotKernel [] [] [] ⟨3⟩ [] (fun _ _ => none))
          [⟨none, ⟨some [10, 0, 0, 5], [255, 255, 255, 255]⟩, some [10, 0, 0, 1]⟩] "eth0"
        = some ([.RuleList, .RouteList none, .LinkByName "eth0", .RouteList (some ⟨3⟩),
            .RuleAdd ⟨100, some ⟨some [10, 0, 0, 5], [255, 255, 255, 255]⟩⟩,
            .RouteAdd ⟨100, some ⟨IPv4zero, [0, 0, 0, 0]⟩, none, some [10, 0, 0, 1], 3, 0⟩],
          none) := by
  obtain ⟨t0, ts, h1, h2, h3⟩ := doRoutes_tables_total ipCfgs R A I hlen
  have hrun := doRoutes_eq k ipCfgs iface R A I link t0 ts hR hA hL hI h1 h2
  have hfilter : (planAdds link.Index I ipCfgs ts ++ I.map Call.RouteDel).filter isAdd =
      expectedAdds link.Index ipCfgs ts := by
    rw [List.filter_append, filter_isAdd_planAdds, filter_isAdd_routeDel, List.append_nil]
  have hlist : (listing iface link).filter isAdd = [] := rfl
  refine ⟨ts, _, _, h3, hrun, ?_, ?_, by decide⟩
  · obtain ⟨pre, hp1, hp2⟩ := runCalls_trace k doRoutesErr
      (planAdds link.Index I ipCfgs ts ++ I.map Call.RouteDel) (listing iface link)
    rw [hp2, List.filter_append, hlist, List.nil_append, ← hfilter]
    exact List.IsPrefix.filter isAdd hp1
  · intro hok
    rw [runCalls_allSucceed k doRoutesErr _ _ (allSucceed_of_ok k hok _ _)]
    refine ⟨?_, rfl⟩
    rw [List.filter_append, hlist, List.nil_append, hfilter]

/-- C6, witness: the sample assignments, the first with a gateway and the
second without, table 100 in use by a rule. -/
theorem doRoutes_default_route_per_gateway_witness :
    ∃ (ts : List Int) (trace : List Call) (res : Option Error),
      ts.length = sampleCfgs.length ∧ doRoutes (snapshotKernel sampleRules [] [] sampleLink [] (fun _ _ => none)) sampleCfgs "eth0" = some (trace, res) ∧
      trace.filter isAdd <+: expectedAdds sampleLink.Index sampleCfgs ts ∧
      ((∀ h c, (snapshotKernel sampleRules [] [] sampleLink [] (fun _ _ => none)).mutate h c = none) →
        trace.filter isAdd = expectedAdds sampleLink.Index sampleCfgs ts ∧ res = none) ∧
      doRoutes (snapshotKernel [] [] [] ⟨3⟩ [] (fun _ _ => none))
          [⟨none, ⟨some [10, 0, 0, 5], [255, 255, 255, 255]⟩, some [10, 0, 0, 1]⟩] "eth0"
        = some ([.RuleList, .RouteList none, .LinkByName "eth0", .RouteList (some ⟨3⟩),
            .RuleAdd ⟨100, some ⟨some [10, 0, 0, 5], [255, 255, 255, 255]⟩⟩,
            .RouteAdd ⟨100, some ⟨IPv4zero, [0, 0, 0, 0]⟩, none, some [10, 0, 0, 1], 3, 0⟩],
          none) :=
  doRoutes_default_route_per_gateway
    (snapshotKernel sampleRules [] [] sampleLink [] (fun _ _ => none))
    sampleCfgs "eth0" sampleRules [] [] sampleLink rfl rfl rfl rfl (by decide)

/-- C7. For every list of N assignments and every fixed table,
`doRoutesWithTable` issues `RuleAdd` calls only, in assignment order, each
with the fixed table and with source the IP of the assignment under a
full-length mask: no route operation, no listing, no deletion. Either every
`RuleAdd` succeeds, and it returns nil after exactly N calls; or the call of
some assignment is the first to fail, and it returns an error right after
that call, the calls of the earlier assignments having succeeded and nothing
being undone. -/
theorem doRoutesWithTable_rules_only (k : Kernel) (table : Int) (ipCfgs : List IPConfig) :
    (allSucceed k (ipCfgs.map (fun c => Call.RuleAdd (hostRule c table))) [] = true ∧
      doRoutesWithTable k table ipCfgs [] =
        (ipCfgs.map (fun c => Call.RuleAdd (hostRule c table)), none)) ∨
    (∃ pre c post e, ipCfgs = pre ++ c :: post ∧
      allSucceed k (pre.map (fun c => Call.RuleAdd (hostRule c table))) [] = true ∧
      k.mutate (pre.map (fun c => Call.RuleAdd (hostRule c table)))
        (.RuleAdd (hostRule c table)) = some e ∧
      doRoutesWithTable k table ipCfgs [] =
        ((pre ++ [c]).map (fun c => Call.RuleAdd (hostRule c table)),
          some (.addRuleWithTable e))) := by
  rw [doRoutesWithTable_eq]
  rcases runCalls_map k (fun _ e => Error.addRuleWithTable e)
      (fun c => Call.RuleAdd (hostRule c table)) ipCfgs []
    with ⟨g1, g2⟩ | ⟨pre, c, post, e, g1, g2, g3, g4⟩
  · left
    exact ⟨g1, by simpa using g2⟩
  · right
    exact ⟨pre, c, post, e, g1, g2, by simpa using g3, by simpa using g4⟩

/-! ## Teardown: claims -/

/-- C8. Whenever rule listing, interface resolution and address listing
succeed, `tidyRules` issues, after these three calls, one `RuleDel` for each
listed rule that has a source equal (`net.IP.Equal`) to an address of the
interface, in list order, and nothing else: a listed rule is the argument of
a `RuleDel` if and only if it has a source and that source equals an address
of the interface, and a `RuleDel` is issued for no other rule. Consequently
a rule installed by provisioning (`hostRule`) that is listed, its address
still being on the interface, gets its `RuleDel`, and no rule with a source
different from every address of the interface does. -/
theorem tidyRules_deletes_rules_on_interface (k : Kernel) (iface : String) (table : Option Int)
    (rules : List Rule) (link : Link) (addrs : List Addr)
    (hlist : (tidyList k table).2 = .ok rules) (hlink : k.LinkByName iface = .ok link)
    (haddrs : k.AddrList link = .ok addrs) :
    (tidyRules k iface table).1 = [(tidyList k table).1, .LinkByName iface, .AddrList link] ++
        (rules.filter (onInterface addrs)).map Call.RuleDel ∧
    ruleDels (tidyRules k iface table).1 = rules.filter (onInterface addrs) ∧
    (∀ rule ∈ rules, (Call.RuleDel rule ∈ (tidyRules k iface table).1 ↔
      ∃ src, rule.Src = some src ∧ ∃ addr ∈ addrs, src.IP.Equal addr.IP = true)) ∧
    (∀ rule, Call.RuleDel rule ∈ (tidyRules k iface table).1 →
      rule ∈ rules ∧
        ∃ src, rule.Src = some src ∧ ∃ addr ∈ addrs, src.IP.Equal addr.IP = true) ∧
    (∀ ipCfg t, hostRule ipCfg t ∈ rules →
      (∃ addr ∈ addrs, ipCfg.Address.IP.Equal addr.IP = true) →
      Call.RuleDel (hostRule ipCfg t) ∈ (tidyRules k iface table).1) := by
  have heq := tidyRules_eq k iface table rules link addrs hlist hlink haddrs
  have hmem : ∀ rule, Call.RuleDel rule ∈ (tidyRules k iface table).1 ↔
      rule ∈ rules ∧ onInterface addrs rule = true := by
    intro rule
    rw [heq]
    have hne := (tidyList_fst_not_ruleDel k table).2 rule
    simp only [List.mem_append, List.mem_cons, List.mem_singleton, List.not_mem_nil, or_false,
      List.mem_map, List.mem_filter, hne.symm, false_or, Call.RuleDel.injEq, exists_eq_right,
      reduceCtorEq]
  refine ⟨by rw [heq], ?_, ?_, ?_, ?_⟩
  · rw [heq]
    exact ruleDels_teardown _ _ _ _ (tidyList_fst_not_ruleDel k table).1 rfl rfl
  · intro rule hr
    rw [hmem, ← onInterface_iff]
    exact ⟨fun h => h.2, fun h => ⟨hr, h⟩⟩
  · intro rule hr
    rw [hmem] at hr
    exact ⟨hr.1, (onInterface_iff addrs rule).mp hr.2⟩
  · intro ipCfg t hin hpresent
    rw [hmem]
    refine ⟨hin, (onInterface_iff addrs _).mpr ⟨_, rfl, hpresent⟩⟩

/-- C8, witness: three listed rules, one with the source `10.0.0.5` that is
on the interface (listed by the kernel in its 16-byte form), one without a
source and one with the source `192.168.1.9`. -/
theorem tidyRules_deletes_rules_on_interface_witness :
    (tidyRules (snapshotKernel listedRules [] [] sampleLink sampleAddrs (fun _ _ => none)) "eth0" none).1 = [(tidyList (snapshotKernel listedRules [] [] sampleLink sampleAddrs (fun _ _ => none)) none).1, .LinkByName "eth0", .AddrList sampleLink] ++
        (listedRules.filter (onInterface sampleAddrs)).map Call.RuleDel ∧
    ruleDels (tidyRules (snapshotKernel listedRules [] [] sampleLink sampleAddrs (fun _ _ => none)) "eth0" none).1 = listedRules.filter (onInterface sampleAddrs) ∧
    (∀ rule ∈ listedRules, (Call.RuleDel rule ∈ (tidyRules (snapshotKernel listedRules [] [] sampleLink sampleAddrs (fun _ _ => none)) "eth0" none).1 ↔
      ∃ src, rule.Src = some src ∧ ∃ addr ∈ sampleAddrs, src.IP.Equal addr.IP = true)) ∧
    (∀ rule, Call.RuleDel rule ∈ (tidyRules (snapshotKernel listedRules [] [] sampleLink sampleAddrs (fun _ _ => none)) "eth0" none).1 →
      rule ∈ listedRules ∧
        ∃ src, rule.Src = some src ∧ ∃ addr ∈ sampleAddrs, src.IP.Equal addr.IP = true) ∧
    (∀ ipCfg t, hostRule ipCfg t ∈ listedRules →
      (∃ addr ∈ sampleAddrs, ipCfg.Address.IP.Equal addr.IP = true) →
      Call.RuleDel (hostRule ipCfg t) ∈ (tidyRules (snapshotKernel listedRules [] [] sampleLink sampleAddrs (fun _ _ => none)) "eth0" none).1) :=
  tidyRules_deletes_rules_on_interface
    (snapshotKernel listedRules [] [] sampleLink sampleAddrs (fun _ _ => none))
    "eth0" none listedRules sampleLink sampleAddrs rfl rfl rfl

/-- C9. In `tidyRules` a failed `RuleDel` never stops the cleanup: whatever
the outcome `m` of the deletions, the calls issued are the three listings
followed by one `RuleDel` for each listed rule that passes the test, in list
order. The result is nil if and only if no attempted deletion failed, and
when a deletion fails with `e` and all the deletions after it succeed, the
result is the error made from `e`: the last failure, not the first. Example:
three deletions of which the first fails with "first", the second with
"second" and the third succeeds give the error made from "second". -/
theorem tidyRules_reports_last_failure (k : Kernel) (iface : String) (table : Option Int)
    (rules : List Rule) (link : Link) (addrs : List Addr)
    (hlist : (tidyList k table).2 = .ok rules) (hlink : k.LinkByName iface = .ok link)
    (haddrs : k.AddrList link = .ok addrs) :
    (∀ m, (tidyRules { k with mutate := m } iface table).1 =
      [(tidyList k table).1, .LinkByName iface, .AddrList link] ++ (rules.filter (onInterface addrs)).map Call.RuleDel) ∧
    ((tidyRules k iface table).2 = none ↔
      allSucceed k ((rules.filter (onInterface addrs)).map Call.RuleDel) [(tidyList k table).1, .LinkByName iface, .AddrList link] = true) ∧
    (∀ pre r post e, (rules.filter (onInterface addrs)) = pre ++ r :: post →
      k.mutate ([(tidyList k table).1, .LinkByName iface, .AddrList link] ++ pre.map Call.RuleDel) (.RuleDel r) = some e →
      allSucceed k (post.map Call.RuleDel)
        ([(tidyList k table).1, .LinkByName iface, .AddrList link] ++ (pre ++ [r]).map Call.RuleDel) = true →
      (tidyRules k iface table).2 = some (.deleteRule e)) ∧
    tidyRules
        (snapshotKernel
          [⟨100, some ⟨some [10, 0, 0, 5], [255, 255, 255, 255]⟩⟩,
           ⟨101, some ⟨some [10, 0, 0, 5], [255, 255, 255, 255]⟩⟩,
           ⟨102, some ⟨some [10, 0, 0, 5], [255, 255, 255, 255]⟩⟩]
          [] [] ⟨3⟩ [⟨some [10, 0, 0, 5]⟩]
          (fun h _ => if h.length = 3 then some "first"
            else if h.length = 4 then some "second" else none))
        "eth0" none
      = ([.RuleList, .LinkByName "eth0", .AddrList ⟨3⟩,
          .RuleDel ⟨100, some ⟨some [10, 0, 0, 5], [255, 255, 255, 255]⟩⟩,
          .RuleDel ⟨101, some ⟨some [10, 0, 0, 5], [255, 255, 255, 255]⟩⟩,
          .RuleDel ⟨102, some ⟨some [10, 0, 0, 5], [255, 255, 255, 255]⟩⟩],
        some (.deleteRule "second")) := by
  have heq := tidyRules_eq k iface table rules link addrs hlist hlink haddrs
  refine ⟨?_, ?_, ?_, by decide⟩
  · intro m
    have hlist2 : (tidyList { k with mutate := m } table).2 = .ok rules := by
      rw [tidyList_mutate]; exact hlist
    have := tidyRules_eq { k with mutate := m } iface table rules link addrs hlist2 hlink haddrs
    rw [this, tidyList_mutate]
  · rw [heq]
    simp only [Option.map_eq_none']
    rw [lastFailure_eq_none_iff]
    simp
  · intro pre r post e hsplit hfail hrest
    rw [heq, hsplit]
    simp only [List.map_append, List.map_cons, lastFailure_append, lastFailure, hfail]
    simp only [List.map_append, List.map_cons, List.map_nil, List.append_assoc] at hrest
    rw [lastFailure_of_allSucceed k _ _ _ (by simpa using hrest)]
    rfl

/-- C9, witness: the listed rules of the previous witness with every
deletion failing. -/
theorem tidyRules_reports_last_failure_witness :
    (∀ m, (tidyRules { (snapshotKernel listedRules [] [] sampleLink sampleAddrs sampleBusy) with mutate := m } "eth0" none).1 =
      [(tidyList (snapshotKernel listedRules [] [] sampleLink sampleAddrs sampleBusy) none).1, .LinkByName "eth0", .AddrList sampleLink] ++ (listedRules.filter (onInterface sampleAddrs)).map Call.RuleDel) ∧
    ((tidyRules (snapshotKernel listedRules [] [] sampleLink sampleAddrs sampleBusy) "eth0" none).2 = none ↔
      allSucceed (snapshotKernel listedRules [] [] sampleLink sampleAddrs sampleBusy) ((listedRules.filter (onInterface sampleAddrs)).map Call.RuleDel) [(tidyList (snapshotKernel listedRules [] [] sampleLink sampleAddrs sampleBusy) none).1, .LinkByName "eth0", .AddrList sampleLink] = true) ∧
    (∀ pre r post e, (listedRules.filter (onInterface sampleAddrs)) = pre ++ r :: post →
      (snapshotKernel listedRules [] [] sampleLink sampleAddrs sampleBusy).mutate ([(tidyList (snapshotKernel listedRules [] [] sampleLink sampleAddrs sampleBusy) none).1, .LinkByName "eth0", .AddrList sampleLink] ++ pre.map Call.RuleDel) (.RuleDel r) = some e →
      allSucceed (snapshotKernel listedRules [] [] sampleLink sampleAddrs sampleBusy) (post.map Call.RuleDel)
        ([(tidyList (snapshotKernel listedRules [] [] sampleLink sampleAddrs sampleBusy) none).1, .LinkByName "eth0", .AddrList sampleLink] ++ (pre ++ [r]).map Call.RuleDel) = true →
      (tidyRules (snapshotKernel listedRules [] [] sampleLink sampleAddrs sampleBusy) "eth0" none).2 = some (.deleteRule e)) ∧
    tidyRules
        (snapshotKernel
          [⟨100, some ⟨some [10, 0, 0, 5], [255, 255, 255, 255]⟩⟩,
           ⟨101, some ⟨some [10, 0, 0, 5], [255, 255, 255, 255]⟩⟩,
           ⟨102, some ⟨some [10, 0, 0, 5], [255, 255, 255, 255]⟩⟩]
          [] [] ⟨3⟩ [⟨some [10, 0, 0, 5]⟩]
          (fun h _ => if h.length = 3 then some "first"
            else if h.length = 4 then some "second" else none))
        "eth0" none
      = ([.RuleList, .LinkByName "eth0", .AddrList ⟨3⟩,
          .RuleDel ⟨100, some ⟨some [10, 0, 0, 5], [255, 255, 255, 255]⟩⟩,
          .RuleDel ⟨101, some ⟨some [10, 0, 0, 5], [255, 255, 255, 255]⟩⟩,
          .RuleDel ⟨102, some ⟨some [10, 0, 0, 5], [255, 255, 255, 255]⟩⟩],
        some (.deleteRule "second")) :=
  tidyRules_reports_last_failure
    (snapshotKernel listedRules [] [] sampleLink sampleAddrs sampleBusy)
    "eth0" none listedRules sampleLink sampleAddrs rfl rfl rfl

/-- C10, counterexample. The interface does not exist and the rule listing,
which `tidyRules` issues before it resolves the interface, fails: the pass
returns the listing error, not success. -/
theorem tidyRules_missing_interface_listing_error :
    tidyRules
      { RuleList := .error "dump interrupted"
        RuleListFiltered := fun _ => .error "dump interrupted"
        RouteList := fun _ => .ok []
        LinkByName := fun _ => .error (.notFound "Link not found")
        AddrList := fun _ => .ok []
        mutate := fun _ _ => none }
      "eth0" none
    = ([.RuleList], some (.listAllRulesToTidy "dump interrupted")) := by
  decide

/-- C10, as amended. For every interface name that does not exist (interface
resolution reports interface-not-found), every kernel and every optional
fixed table, `tidyRules` deletes no rule; it returns success whenever the
rule listing it starts with succeeds, and the error of that listing when it
fails. -/
theorem tidyRules_missing_interface (k : Kernel) (iface : String) (table : Option Int)
    (msg : String) (hnf : k.LinkByName iface = .error (.notFound msg)) :
    (∀ r, Call.RuleDel r ∉ (tidyRules k iface table).1) ∧
    (∀ rules, (tidyList k table).2 = .ok rules →
      tidyRules k iface table = ([(tidyList k table).1, .LinkByName iface], none)) ∧
    (∀ err, (tidyList k table).2 = .error err →
      tidyRules k iface table = ([(tidyList k table).1], some err)) := by
  rcases hl : tidyList k table with ⟨c, err | rs⟩
  · have hc : ∀ r, c ≠ Call.RuleDel r := by
      intro r
      have := (tidyList_fst_not_ruleDel k table).2 r
      rwa [hl] at this
    refine ⟨?_, ?_, ?_⟩
    · intro r
      simp only [tidyRules, hl, List.mem_singleton]
      exact fun h => hc r h.symm
    · intro rules h
      cases h
    · intro err2 h
      cases h
      simp only [tidyRules, hl]
  · have hc : ∀ r, c ≠ Call.RuleDel r := by
      intro r
      have := (tidyList_fst_not_ruleDel k table).2 r
      rwa [hl] at this
    refine ⟨?_, ?_, ?_⟩
    · intro r
      simp only [tidyRules, hl, hnf, List.mem_cons, List.mem_singleton, List.not_mem_nil,
        or_false, reduceCtorEq, not_or, not_false_eq_true, and_true]
      exact fun h => hc r h.symm
    · intro rules h
      simp only [tidyRules, hl, hnf]
    · intro err2 h
      cases h

/-- C10, witness: an interface that does not exist on a host with the listed
rules. -/
theorem tidyRules_missing_interface_witness :
    (∀ r, Call.RuleDel r ∉ (tidyRules (noLinkKernel listedRules) "eth0" none).1) ∧
    (∀ rules, (tidyList (noLinkKernel listedRules) none).2 = .ok rules →
      tidyRules (noLinkKernel listedRules) "eth0" none = ([(tidyList (noLinkKernel listedRules) none).1, .LinkByName "eth0"], none)) ∧
    (∀ err, (tidyList (noLinkKernel listedRules) none).2 = .error err →
      tidyRules (noLinkKernel listedRules) "eth0" none = ([(tidyList (noLinkKernel listedRules) none).1], some err)) :=
  tidyRules_missing_interface (noLinkKernel listedRules) "eth0" none "Link not found" rfl

end Sbr
